import Mathlib

/-!
A shallow embedding of `sudoku.go`, the single source file of go-sudoku-solver.

The program is a small web server over two flat directories: `./data` holds the
editable wiki pages and `./sudoku` the read-only boards.  The embedding keeps the
names of the Go source.  Go values are rendered as follows.

* a `byte` is a `Fin 256`; byte arithmetic is written out on `Nat` with an explicit
  `% 256`;
* an `int` is an `Int`;
* a path, title or template name is a Lean `String`; file contents and form values
  are byte lists;
* a fixed array `[9][9]int` is a function on `Fin 9 × Fin 9`, and the run-time bounds
  check of an index expression is written out where the index is computed;
* a Go function returning `(v, error)` returns a `Result`, which also has an outcome
  for a run-time panic;
* the file system and the response are explicit values passed through the handlers.
  Console output (`fmt.Println`, and the method `String` of `Sudoku`, which only
  prints) is not part of the state.
-/

namespace GoSudoku

/-! ## Bytes and results -/

/-- A Go `byte`. -/
abbrev Byte := Fin 256

/-- The bytes of a string literal whose characters are all ASCII. -/
def asciiBytes (s : String) : List Byte :=
  s.data.map (fun c => ⟨c.toNat % 256, Nat.mod_lt _ (by decide)⟩)

/-- Errors returned by the `os` package: the only one the model produces is a
missing file or directory. -/
inductive OSError where
  | notExist (op : String) (path : String)
  deriving DecidableEq, Repr

/-- The text of `err.Error()`. -/
def OSError.Error : OSError → String
  | .notExist op path => op ++ " " ++ path ++ ": no such file or directory"

/-- Outcome of a Go call with signature `(T, error)`: a value with a nil error, a
non-nil error, or a run-time panic raised before the function returned. -/
inductive Result (α : Type) where
  | ok (v : α)
  | err (e : OSError)
  | panic (msg : String)
  deriving DecidableEq, Repr

/-! ## The file system

Regular files are keyed by their path exactly as the program spells it (names are
case sensitive, as on Linux); `dirs` lists the directories that exist.  Every path
the program builds is `./data/` or `./sudoku/` followed by a name and `.txt`. -/

structure FileSystem where
  dirs : List String
  files : List (String × List Byte)
  deriving DecidableEq, Repr

/-- Characters of a path up to, and without, its last slash. -/
def dirOf (path : List Char) : List Char :=
  ((path.reverse.dropWhile (fun c => c != '/')).drop 1).reverse

/-- Characters of a path after its last slash. -/
def baseOf (path : List Char) : List Char :=
  (path.reverse.takeWhile (fun c => c != '/')).reverse

/-- Replace the content stored under `name`, or add the entry at the end. -/
def upsert (name : String) (data : List Byte) :
    List (String × List Byte) → List (String × List Byte)
  | [] => [(name, data)]
  | (n, d) :: rest => if n = name then (name, data) :: rest else (n, d) :: upsert name data rest

/-- Model of `os.ReadFile`: the content of the file, or an error when no such file
exists. -/
def os.ReadFile (fs : FileSystem) (name : String) : Result (List Byte) :=
  match fs.files.lookup name with
  | some body => .ok body
  | none => .err (.notExist "open" name)

/-- Model of `os.WriteFile`: creates or truncates the file; fails, leaving the file
system as it was, when the directory of the file does not exist. -/
def os.WriteFile (fs : FileSystem) (name : String) (data : List Byte) :
    FileSystem × Option OSError :=
  if String.mk (dirOf name.data) ∈ fs.dirs then
    ({ fs with files := upsert name data fs.files }, none)
  else (fs, some (.notExist "open" name))

/-- The order of file names: character by character, a proper initial part first. -/
def nameLE : List Char → List Char → Bool
  | [], _ => true
  | _ :: _, [] => false
  | a :: as, b :: bs =>
    if a.toNat < b.toNat then true
    else if b.toNat < a.toNat then false
    else nameLE as bs

/-- Insert a name into a list of names sorted by `nameLE`. -/
def insertSorted (a : String) : List String → List String
  | [] => [a]
  | b :: rest => if nameLE a.data b.data then a :: b :: rest else b :: insertSorted a rest

/-- Model of `os.ReadDir`: the names of the files directly inside `dir`, sorted by
file name; an error when the directory does not exist. -/
def os.ReadDir (fs : FileSystem) (dir : String) : Result (List String) :=
  if dir ∈ fs.dirs then
    .ok ((fs.files.filterMap (fun e =>
      if String.mk (dirOf e.1.data) = dir then some (String.mk (baseOf e.1.data)) else none)).foldr
        insertSorted [])
  else .err (.notExist "open" dir)

/-! ## Data model -/

structure Page where
  Title : String
  Body : List Byte
  deriving DecidableEq, Repr

/-- A Go `[9][9]int`. -/
abbrev Grid := Fin 9 → Fin 9 → Int

/-- The zero value of `[9][9]int`. -/
def Grid.zero : Grid := fun _ _ => 0

/-- The assignment `g[i][j] = v` with both indices in range. -/
def Grid.set (g : Grid) (i j : Fin 9) (v : Int) : Grid :=
  fun a b => if a = i ∧ b = j then v else g a b

structure Sudoku where
  Id : String
  Board : Grid
  Flag : Grid

/-! ## `loadSudoku` -/

/-- The expression `int(c - '0')`: the subtraction is on bytes and wraps modulo 256
before the conversion to `int`. -/
def byteMinusZero (c : Byte) : Int :=
  (((c.val + 256 - 48) % 256 : Nat) : Int)

/-- The loop `for i, c := range body { board[i/9][i%9] = int(c - '0') }`, started at
index `i`.  The row index `i/9` is checked against the array length 9; the column
index `i%9` is always in range. -/
def parseBoard : List Byte → Nat → Grid → Result Grid
  | [], _, board => .ok board
  | c :: rest, i, board =>
    if h : i / 9 < 9 then
      parseBoard rest (i + 1)
        (board.set ⟨i / 9, h⟩ ⟨i % 9, Nat.mod_lt _ (by decide)⟩ (byteMinusZero c))
    else .panic "index out of range"

/-- The body of the inner loop on lines 63-66: clear the flag, then set it when the
cell is not empty. -/
def flagCell (board : Grid) (flag : Grid) (i j : Fin 9) : Grid :=
  let flag := flag.set i j 0
  if board i j ≠ 0 then flag.set i j 1 else flag

/-- The nested loops on lines 61-68. -/
def computeFlags (board : Grid) : Grid :=
  (List.finRange 9).foldl
    (fun flag i => (List.finRange 9).foldl (fun flag j => flagCell board flag i j) flag)
    Grid.zero

def loadSudoku (fs : FileSystem) (title : String) : Result Sudoku :=
  let filename := "./sudoku/" ++ title ++ ".txt"
  match os.ReadFile fs filename with
  | .err e => .err e
  | .panic m => .panic m
  | .ok body =>
    match parseBoard body 0 Grid.zero with
    | .err e => .err e
    | .panic m => .panic m
    | .ok board => .ok { Board := board, Flag := computeFlags board, Id := title }

/-! ## Notions used to state the properties of a board -/

/-- The flag the loops on lines 61-68 give to a cell. -/
def flagOf (board : Grid) (a b : Fin 9) : Int := if board a b ≠ 0 then 1 else 0

/-- Cell number `n` of a grid in row-major order; 0 past the last cell. -/
def cellAt (g : Grid) (n : Nat) : Int :=
  if h : n < 81 then g ⟨n / 9, by omega⟩ ⟨n % 9, Nat.mod_lt _ (by decide)⟩ else 0

/-! ## `strings` -/

/-- Model of `strings.ToLower` on ASCII text: the letters `A`..`Z` are mapped to
`a`..`z` and every other character is kept.  (Go also lowers non-ASCII letters; the
route grammar lets only ASCII letters and digits through to the callers.) -/
def strings.ToLower (s : String) : String :=
  String.mk (s.data.map Char.toLower)

/-- Model of `strings.HasPrefix`. -/
def strings.HasPrefix (s pre : String) : Bool :=
  pre.data.isPrefixOf s.data

/-- Model of `strings.TrimSuffix`: `s` without the trailing `suffix`, or `s` itself
when it does not end in `suffix`. -/
def strings.TrimSuffix (s suffix : String) : String :=
  if suffix.data.isSuffixOf s.data then
    String.mk (s.data.take (s.data.length - suffix.data.length))
  else s

/-! ## Pages -/

def Page.save (fs : FileSystem) (p : Page) : FileSystem × Option OSError :=
  let filename := "./data/" ++ strings.ToLower p.Title ++ ".txt"
  os.WriteFile fs filename p.Body

def loadPage (fs : FileSystem) (title : String) : Result Page :=
  let filename := "./data/" ++ title ++ ".txt"
  match os.ReadFile fs filename with
  | .err e => .err e
  | .panic m => .panic m
  | .ok body => .ok { Title := title, Body := body }

/-- The loop of `loadAllPages` over the directory entries: the first page that fails
to load ends the listing with its error. -/
def loadPages (fs : FileSystem) : List String → Result (List Page)
  | [] => .ok []
  | file :: files =>
    let title := strings.TrimSuffix file ".txt"
    match loadPage fs title with
    | .err e => .err e
    | .panic m => .panic m
    | .ok p =>
      match loadPages fs files with
      | .err e => .err e
      | .panic m => .panic m
      | .ok pages => .ok (p :: pages)

def loadAllPages (fs : FileSystem) : Result (List Page) :=
  match os.ReadDir fs "./data" with
  | .err e => .err e
  | .panic m => .panic m
  | .ok files => loadPages fs files

/-- The loop of `loadAllSudokus` over the directory entries. -/
def loadSudokus (fs : FileSystem) : List String → Result (List Sudoku)
  | [] => .ok []
  | file :: files =>
    let title := strings.TrimSuffix file ".txt"
    match loadSudoku fs title with
    | .err e => .err e
    | .panic m => .panic m
    | .ok s =>
      match loadSudokus fs files with
      | .err e => .err e
      | .panic m => .panic m
      | .ok sudokus => .ok (s :: sudokus)

def loadAllSudokus (fs : FileSystem) : Result (List Sudoku) :=
  match os.ReadDir fs "./sudoku" with
  | .err e => .err e
  | .panic m => .panic m
  | .ok files => loadSudokus fs files

/-! ## `regexp`

A backtracking matcher for the fragment of the regular-expression language that
`validPath` uses.  `run` lists the ways an expression can match at a position, in
the order a backtracking engine tries them, so the head of the list is the
leftmost-first match that Go's `regexp` reports. -/

inductive Regex where
  | empty
  | lit (c : Char)
  | cls (ranges : List (Char × Char))
  | seq (a b : Regex)
  | alt (a b : Regex)
  | plus (a : Regex)
  | group (n : Nat) (a : Regex)
  | bol
  | eol

/-- A position in the text: characters consumed so far, characters left, and the
groups captured so far (most recent first). -/
structure MatchState where
  pos : Nat
  rest : List Char
  caps : List (Nat × List Char)
  deriving DecidableEq, Repr

/-- One or more greedy repetitions of `step`.  Each repetition of a step that
consumes a character shortens the text, so as many rounds as there are characters
left are enough. -/
def plusLoop (step : MatchState → List MatchState) : Nat → MatchState → List MatchState
  | 0, _ => []
  | n + 1, st => (step st).flatMap (fun st1 => plusLoop step n st1 ++ [st1])

/-- Whether a character lies in one of the ranges of a character class. -/
def inClass (ranges : List (Char × Char)) (d : Char) : Bool :=
  ranges.any (fun r => decide (r.1 ≤ d) && decide (d ≤ r.2))

def Regex.run : Regex → MatchState → List MatchState
  | .empty => fun st => [st]
  | .lit c => fun st =>
    match st.rest with
    | d :: t => if d = c then [{ st with pos := st.pos + 1, rest := t }] else []
    | [] => []
  | .cls ranges => fun st =>
    match st.rest with
    | d :: t =>
      if inClass ranges d then [{ st with pos := st.pos + 1, rest := t }]
      else []
    | [] => []
  | .seq a b => fun st => (a.run st).flatMap b.run
  | .alt a b => fun st => a.run st ++ b.run st
  | .plus a => fun st => plusLoop a.run st.rest.length st
  | .group n a => fun st =>
    (a.run st).map (fun st1 =>
      { st1 with caps := (n, st.rest.take (st1.pos - st.pos)) :: st1.caps })
  | .bol => fun st => if st.pos = 0 then [st] else []
  | .eol => fun st => if st.rest = [] then [st] else []

/-- The expression matching a literal string. -/
def Regex.str : List Char → Regex
  | [] => .empty
  | c :: cs => .seq (.lit c) (Regex.str cs)

/-- A compiled expression with its number of capture groups. -/
structure Regexp where
  expr : Regex
  numSubexp : Nat

/-- The match starting at character `start`, as the slice `FindStringSubmatch`
returns: the matched text followed by the text of each group. -/
def Regexp.matchAt (re : Regexp) (text : List Char) (start : Nat) : Option (List String) :=
  match re.expr.run { pos := start, rest := text.drop start, caps := [] } with
  | [] => none
  | st :: _ =>
    some (String.mk ((text.drop start).take (st.pos - start)) ::
      (List.range re.numSubexp).map (fun k => String.mk ((st.caps.lookup (k + 1)).getD [])))

/-- Model of `(*Regexp).FindStringSubmatch`: the leftmost match, `none` for Go's nil
slice. -/
def Regexp.FindStringSubmatch (re : Regexp) (s : String) : Option (List String) :=
  (List.range (s.data.length + 1)).findSome? (re.matchAt s.data)

/-- The expression `^/(edit|save|view|sudoku)/([a-zA-Z0-9]+)$`. -/
def validPath : Regexp :=
  { expr :=
      .seq .bol
        (.seq (.lit '/')
          (.seq (.group 1
              (.alt (Regex.str "edit".data)
                (.alt (Regex.str "save".data)
                  (.alt (Regex.str "view".data) (Regex.str "sudoku".data)))))
            (.seq (.lit '/')
              (.seq (.group 2 (.plus (.cls [('a', 'z'), ('A', 'Z'), ('0', '9')])))
                .eol))))
    numSubexp := 2 }

/-! ## `net/http` and `html/template`

A request is its path and its form values; a response records the call by which the
handler answered, with the arguments of that call.  The five template files under
`./tmpl` are not part of the sources, so the parsed template set is a parameter of
every handler that renders. -/

structure URL where
  Path : String

structure Request where
  URL : URL
  FormValue : String → List Byte

inductive Response where
  /-- Status 200 with the bytes a template wrote. -/
  | ok (body : List Byte)
  /-- A call of `http.Redirect` with this target and status code. -/
  | redirect (url : String) (code : Nat)
  /-- A call of `http.Error` with this text and status code. -/
  | error (msg : String) (code : Nat)
  /-- The handler panicked; the server drops the connection. -/
  | aborted (msg : String)
  deriving DecidableEq, Repr

def http.StatusMovedPermanently : Nat := 301
def http.StatusFound : Nat := 302
def http.StatusNotFound : Nat := 404
def http.StatusInternalServerError : Nat := 500

def http.Error (msg : String) (code : Nat) : Response := .error msg code

def http.NotFound : Response := http.Error "404 page not found" http.StatusNotFound

/-- The call `http.Redirect(w, r, url, code)`.  Every target the program passes is a
rooted path, which `net/http` writes to the `Location` header as it is when it is an
alphanumeric route such as `/view/FrontPage`. -/
def http.Redirect (url : String) (code : Nat) : Response := .redirect url code

/-- What a template is executed on. -/
inductive TemplateData where
  | page (p : Page)
  | pages (ps : List Page)
  | sudoku (s : Sudoku)
  | sudokus (ss : List Sudoku)

/-- The parsed template set: executing a named template on a value gives the bytes
written or an error text. -/
structure Template where
  ExecuteTemplate : String → TemplateData → Except String (List Byte)

abbrev HandlerFunc := FileSystem → Request → FileSystem × Response

/-- The type `func(http.ResponseWriter, *http.Request, string)`. -/
abbrev TitleHandler := FileSystem → Request → String → FileSystem × Response

/-! ## Handlers -/

def renderTemplate (templates : Template) (tmpl : String) (p : Page) : Response :=
  match templates.ExecuteTemplate (tmpl ++ ".html") (.page p) with
  | .error e => http.Error e http.StatusInternalServerError
  | .ok out => .ok out

def rootHandler : HandlerFunc := fun fs _ =>
  (fs, http.Redirect "/view/FrontPage" http.StatusFound)

def viewAllHandler (templates : Template) : HandlerFunc := fun fs _ =>
  match loadAllPages fs with
  | .panic m => (fs, .aborted m)
  | .err e => (fs, http.Error e.Error http.StatusInternalServerError)
  | .ok pages =>
    match templates.ExecuteTemplate "all.html" (.pages pages) with
    | .error e => (fs, http.Error e http.StatusInternalServerError)
    | .ok out => (fs, .ok out)

def viewAllSudokuHandler (templates : Template) : HandlerFunc := fun fs _ =>
  match loadAllSudokus fs with
  | .panic m => (fs, .aborted m)
  | .err e => (fs, http.Error e.Error http.StatusInternalServerError)
  | .ok sudokus =>
    match templates.ExecuteTemplate "all-sudokus.html" (.sudokus sudokus) with
    | .error e => (fs, http.Error e http.StatusInternalServerError)
    | .ok out => (fs, .ok out)

def viewSudokuHandler (templates : Template) : TitleHandler := fun fs _ title =>
  match loadSudoku fs title with
  | .panic m => (fs, .aborted m)
  | .err e => (fs, http.Error e.Error http.StatusInternalServerError)
  | .ok s =>
    match templates.ExecuteTemplate "sudoku.html" (.sudoku s) with
    | .error e => (fs, http.Error e http.StatusInternalServerError)
    | .ok out => (fs, .ok out)

def viewHandler (templates : Template) : TitleHandler := fun fs _ title =>
  match loadPage fs title with
  | .panic m => (fs, .aborted m)
  | .err _ => (fs, http.Redirect ("/edit/" ++ title) http.StatusFound)
  | .ok p => (fs, renderTemplate templates "view" p)

def editHandler (templates : Template) : TitleHandler := fun fs _ title =>
  match loadPage fs title with
  | .panic m => (fs, .aborted m)
  | .err _ => (fs, renderTemplate templates "edit" { Title := title, Body := [] })
  | .ok p => (fs, renderTemplate templates "edit" p)

def saveHandler : TitleHandler := fun fs r title =>
  let body := r.FormValue "body"
  let p : Page := { Title := title, Body := body }
  match p.save fs with
  | (fs1, some err) => (fs1, http.Error err.Error http.StatusInternalServerError)
  | (fs1, none) => (fs1, http.Redirect ("/view/" ++ title) http.StatusFound)

def makeHandler (fn : TitleHandler) : HandlerFunc := fun fs r =>
  match validPath.FindStringSubmatch r.URL.Path with
  | none => (fs, http.NotFound)
  | some m =>
    match m[2]? with
    | some title => fn fs r title
    | none => (fs, .aborted "index out of range")

/-! ## `http.ServeMux`

The request multiplexer of `net/http`, for patterns without a host: a pattern that
ends in a slash names a subtree, any other pattern names one path, the longest
matching pattern wins; a request for a subtree root without its slash, or for a path
that is not in its clean form, is answered with a permanent redirect. -/

structure ServeMux where
  m : List (String × HandlerFunc)
  es : List (String × HandlerFunc)

/-- The insertion that keeps `es` ordered from the longest pattern to the shortest. -/
def appendSorted (e : String × HandlerFunc) :
    List (String × HandlerFunc) → List (String × HandlerFunc)
  | [] => [e]
  | x :: xs => if x.1.length < e.1.length then e :: x :: xs else x :: appendSorted e xs

def ServeMux.HandleFunc (mux : ServeMux) (pattern : String) (handler : HandlerFunc) :
    ServeMux :=
  { m := mux.m ++ [(pattern, handler)]
    es := if pattern.data.getLast? = some '/' then appendSorted (pattern, handler) mux.es
          else mux.es }

/-- The handler registered for the path itself, else the one for the longest subtree
pattern that is a prefix of the path. -/
def ServeMux.matchPath (mux : ServeMux) (path : String) : Option HandlerFunc :=
  match mux.m.find? (fun e => e.1 = path) with
  | some e => some e.2
  | none =>
    match mux.es.find? (fun e => strings.HasPrefix path e.1) with
    | some e => some e.2
    | none => none

/-- The segments of a path between its slashes. -/
def splitSlash : List Char → List (List Char)
  | [] => [[]]
  | c :: cs =>
    match splitSlash cs with
    | [] => [[]]
    | seg :: segs => if c = '/' then [] :: seg :: segs else (c :: seg) :: segs

/-- Model of `path.Clean` on a rooted path: empty and `.` segments are dropped, a
`..` segment drops the segment before it. -/
def pathClean (p : List Char) : List Char :=
  let stack := (splitSlash p).foldl
    (fun st seg =>
      if seg = [] ∨ seg = ['.'] then st
      else if seg = ['.', '.'] then st.dropLast
      else st ++ [seg]) []
  '/' :: List.intercalate ['/'] stack

/-- The canonical form of a request path, as computed by the multiplexer. -/
def cleanPath (p : String) : String :=
  if p = "" then "/"
  else
    let p1 := if p.data.head? = some '/' then p.data else '/' :: p.data
    let np := pathClean p1
    if p1.getLast? = some '/' ∧ np ≠ ['/'] then String.mk (np ++ ['/']) else String.mk np

/-- Whether the path names a registered subtree without its final slash. -/
def ServeMux.shouldRedirect (mux : ServeMux) (path : String) : Bool :=
  if mux.m.any (fun e => e.1 = path) then false
  else if path.data = [] then false
  else if mux.m.any (fun e => e.1 = path ++ "/") then path.data.getLast? != some '/'
  else false

def ServeMux.ServeHTTP (mux : ServeMux) : HandlerFunc := fun fs r =>
  let path := cleanPath r.URL.Path
  if mux.shouldRedirect path then
    (fs, http.Redirect (path ++ "/") http.StatusMovedPermanently)
  else if path ≠ r.URL.Path then
    (fs, http.Redirect path http.StatusMovedPermanently)
  else
    match mux.matchPath r.URL.Path with
    | some h => h fs r
    | none => (fs, http.NotFound)

/-! ## `main` -/

/-- The multiplexer after the seven registrations of `main`, in their order. -/
def main (templates : Template) : ServeMux :=
  let mux : ServeMux := { m := [], es := [] }
  let mux := mux.HandleFunc "/" rootHandler
  let mux := mux.HandleFunc "/sudoku/all" (viewAllSudokuHandler templates)
  let mux := mux.HandleFunc "/sudoku/" (makeHandler (viewSudokuHandler templates))
  let mux := mux.HandleFunc "/all/" (viewAllHandler templates)
  let mux := mux.HandleFunc "/view/" (makeHandler (viewHandler templates))
  let mux := mux.HandleFunc "/edit/" (makeHandler (editHandler templates))
  let mux := mux.HandleFunc "/save/" (makeHandler saveHandler)
  mux

/-- The server started by `http.ListenAndServe(":8080", nil)`: each request is
answered by the multiplexer that `main` filled. -/
def serve (templates : Template) : HandlerFunc :=
  (main templates).ServeHTTP

/-! ## Sample inputs -/

/-- The board text of the parsing scenario (78 digits). -/
def scenarioBoard : String :=
  "530070000600195000098000060800060003400803001700020006060000280000419005000080"

/-- A file system whose `./sudoku` directory holds the scenario board, a full board
of 81 digits, a board of 82 digits, an empty file and a board with two bytes that
are not digits. -/
def boardsFS : FileSystem :=
  { dirs := ["./data", "./sudoku"]
    files :=
      [("./sudoku/scenario.txt", asciiBytes scenarioBoard),
       ("./sudoku/full.txt", asciiBytes (scenarioBoard ++ "179")),
       ("./sudoku/long.txt", asciiBytes (scenarioBoard ++ "1790")),
       ("./sudoku/empty.txt", []),
       ("./sudoku/odd.txt", asciiBytes "5.x")] }

/-- Templates that write the template name, followed for a page by its title and
body. -/
def sampleTemplates : Template :=
  { ExecuteTemplate := fun name data =>
      match data with
      | .page p => .ok (asciiBytes name ++ asciiBytes p.Title ++ p.Body)
      | _ => .ok (asciiBytes name) }

/-- A request for a path whose form field `body` holds the given bytes. -/
def request (path : String) (body : List Byte) : Request :=
  { URL := { Path := path }, FormValue := fun key => if key = "body" then body else [] }

/-- A file system with an empty pages directory. -/
def emptyPagesFS : FileSystem :=
  { dirs := ["./data", "./sudoku"], files := [] }

/-- A file system whose pages directory holds two pages. -/
def pagesFS : FileSystem :=
  { dirs := ["./data", "./sudoku"]
    files := [("./data/notes.txt", asciiBytes "n"), ("./data/about.txt", asciiBytes "a")] }

/-! ## The route grammar, in the words of the specification -/

/-- An ASCII letter or digit. -/
def IsAlnum (c : Char) : Prop :=
  ('a' ≤ c ∧ c ≤ 'z') ∨ ('A' ≤ c ∧ c ≤ 'Z') ∨ ('0' ≤ c ∧ c ≤ '9')

instance (c : Char) : Decidable (IsAlnum c) := by
  unfold IsAlnum; infer_instance

/-- The path has the form `"/" verb "/" identifier`, with the verb one of `edit`,
`save`, `view`, `sudoku` and the identifier one or more ASCII letters and digits. -/
def RouteGrammar (path verb id : String) : Prop :=
  verb ∈ ["edit", "save", "view", "sudoku"] ∧ id.data ≠ [] ∧ (∀ c ∈ id.data, IsAlnum c) ∧
    path = "/" ++ verb ++ "/" ++ id

/-! # Theorems -/

set_option maxRecDepth 100000

/-! ## Board parsing: auxiliary facts -/

theorem flagCell_apply (board flag : Grid) (i j a b : Fin 9) :
    flagCell board flag i j a b = if a = i ∧ b = j then flagOf board a b else flag a b := by
  unfold flagCell flagOf Grid.set
  by_cases hc : a = i ∧ b = j
  · obtain ⟨rfl, rfl⟩ := hc
    by_cases hb : board a b = 0 <;> simp [hb]
  · by_cases hb : board i j = 0 <;> simp [hb, hc]

theorem flag_inner (board : Grid) (i : Fin 9) (L : List (Fin 9)) :
    ∀ (flag : Grid) (a b : Fin 9),
      (L.foldl (fun flag j => flagCell board flag i j) flag) a b
        = if a = i ∧ b ∈ L then flagOf board a b else flag a b := by
  induction L with
  | nil => intro flag a b; simp
  | cons j L ih =>
    intro flag a b
    rw [List.foldl_cons, ih, flagCell_apply]
    by_cases ha : a = i <;> by_cases hb : b = j <;> by_cases hL : b ∈ L <;> simp [ha, hb, hL]

theorem flag_outer (board : Grid) (L : List (Fin 9)) :
    ∀ (flag : Grid) (a b : Fin 9),
      (L.foldl
        (fun flag i => (List.finRange 9).foldl (fun flag j => flagCell board flag i j) flag)
        flag) a b
        = if a ∈ L then flagOf board a b else flag a b := by
  induction L with
  | nil => intro flag a b; simp
  | cons i L ih =>
    intro flag a b
    rw [List.foldl_cons, ih, flag_inner]
    by_cases ha : a = i <;> by_cases hL : a ∈ L <;> simp [ha, hL, List.mem_finRange]

theorem computeFlags_apply (board : Grid) (a b : Fin 9) :
    computeFlags board a b = flagOf board a b := by
  unfold computeFlags
  rw [flag_outer]
  simp [List.mem_finRange]

theorem cellAt_set (g : Grid) (i n : Nat) (hi : i < 81) (hn : n < 81) (v : Int) :
    cellAt (g.set ⟨i / 9, by omega⟩ ⟨i % 9, Nat.mod_lt _ (by decide)⟩ v) n
      = if n = i then v else cellAt g n := by
  unfold cellAt Grid.set
  simp only [hn, dite_true, Fin.mk.injEq]
  by_cases h : n = i
  · subst h; simp
  · have : ¬ (n / 9 = i / 9 ∧ n % 9 = i % 9) := by omega
    simp [h, this]

/-- A body that fits in the 81 cells from index `i` on is parsed without a panic, and
the cells it covers hold the wrapped differences while the others keep their value. -/
theorem parseBoard_fits : ∀ (body : List Byte) (i : Nat) (board : Grid),
    i + body.length ≤ 81 →
    ∃ g, parseBoard body i board = .ok g ∧
      ∀ n, n < 81 → cellAt g n =
        if i ≤ n ∧ n < i + body.length then byteMinusZero (body.getD (n - i) 0)
        else cellAt board n := by
  intro body
  induction body with
  | nil => intro i board _; exact ⟨board, rfl, fun n _ => by
      have : ¬ (i ≤ n ∧ n < i + ([] : List Byte).length) := by simp
      rw [if_neg this]⟩
  | cons c rest ih =>
    intro i board h
    have hi : i < 81 := by simp at h; omega
    have h9 : i / 9 < 9 := by omega
    obtain ⟨g, hg, hcell⟩ := ih (i + 1)
      (board.set ⟨i / 9, h9⟩ ⟨i % 9, Nat.mod_lt _ (by decide)⟩ (byteMinusZero c))
      (by simp at h ⊢; omega)
    refine ⟨g, ?_, ?_⟩
    · rw [parseBoard, dif_pos h9]; exact hg
    · intro n hn
      rw [hcell n hn, cellAt_set _ _ _ hi hn]
      by_cases h1 : n = i
      · subst h1; simp
      · by_cases h2 : i + 1 ≤ n ∧ n < i + 1 + rest.length
        · have h3 : i ≤ n ∧ n < i + (c :: rest).length := by simp; omega
          rw [if_pos h2, if_pos h3]
          have : n - i = (n - (i + 1)) + 1 := by omega
          rw [this, List.getD_cons_succ]
        · have h3 : ¬ (i ≤ n ∧ n < i + (c :: rest).length) := by simp; omega
          rw [if_neg h2, if_neg h3, if_neg h1]

/-- A body that runs past cell 80 makes the loop panic. -/
theorem parseBoard_overflow : ∀ (body : List Byte) (i : Nat) (board : Grid),
    i ≤ 81 → 81 < i + body.length →
    parseBoard body i board = .panic "index out of range" := by
  intro body
  induction body with
  | nil => intro i board h1 h2; simp at h2; omega
  | cons c rest ih =>
    intro i board h1 h2
    by_cases h9 : i / 9 < 9
    · rw [parseBoard, dif_pos h9]
      exact ih _ _ (by omega) (by simp at h2; omega)
    · rw [parseBoard, dif_neg h9]

/-! ## `loadSudoku` -/

/-- A readable board file of at most 81 bytes is loaded: the title is kept, cell `n`
holds the wrapped difference of byte `n` (0 past the end of the file), and every
flag is derived from its cell. -/
theorem loadSudoku_fits (fs : FileSystem) (title : String) (b : List Byte)
    (hread : os.ReadFile fs ("./sudoku/" ++ title ++ ".txt") = .ok b)
    (hlen : b.length ≤ 81) :
    ∃ s, loadSudoku fs title = .ok s ∧ s.Id = title ∧
      (∀ n, n < 81 → cellAt s.Board n =
        if n < b.length then byteMinusZero (b.getD n 0) else 0) ∧
      (∀ i j, s.Flag i j = flagOf s.Board i j) := by
  obtain ⟨g, hg, hcell⟩ := parseBoard_fits b 0 Grid.zero (by omega)
  refine ⟨{ Board := g, Flag := computeFlags g, Id := title }, ?_, rfl, ?_, ?_⟩
  · simp only [loadSudoku, hread, hg]
  · intro n hn
    rw [hcell n hn]
    by_cases h : n < b.length
    · simp [h]
    · simp [h, cellAt, Grid.zero]
  · intro i j
    exact computeFlags_apply g i j

/-- A readable board file of more than 81 bytes makes `loadSudoku` panic. -/
theorem loadSudoku_overflow (fs : FileSystem) (title : String) (b : List Byte)
    (hread : os.ReadFile fs ("./sudoku/" ++ title ++ ".txt") = .ok b)
    (hlen : 81 < b.length) :
    loadSudoku fs title = .panic "index out of range" := by
  simp only [loadSudoku, hread, parseBoard_overflow b 0 Grid.zero (by omega) (by omega)]

theorem cellAt_eq (g : Grid) (n : Nat) (h : n < 81) :
    cellAt g n = g ⟨n / 9, by omega⟩ ⟨n % 9, Nat.mod_lt _ (by decide)⟩ := by
  simp [cellAt, h]

theorem byteMinusZero_digit (c : Byte) (h : 48 ≤ c.val ∧ c.val ≤ 57) :
    byteMinusZero c = (c.val : Int) - 48 := by
  unfold byteMinusZero
  have h1 : (c.val + 256 - 48) % 256 = c.val - 48 := by omega
  rw [h1]
  omega

/-- C1: when `loadSudoku` returns a board for a file made of ASCII digits, every cell
`(i/9, i%9)` with `i < 81` and `i < len(b)` holds the numeric value of byte `i`, and
the returned `Id` is the requested title. -/
theorem loadSudoku_digit_cells (fs : FileSystem) (title : String) (b : List Byte)
    (s : Sudoku)
    (hread : os.ReadFile fs ("./sudoku/" ++ title ++ ".txt") = .ok b)
    (hdigits : ∀ c ∈ b, 48 ≤ c.val ∧ c.val ≤ 57)
    (hload : loadSudoku fs title = .ok s)
    (i : Nat) (h81 : i < 81) (hlen : i < b.length) :
    s.Board ⟨i / 9, by omega⟩ ⟨i % 9, Nat.mod_lt _ (by decide)⟩
        = ((b.get ⟨i, hlen⟩).val : Int) - 48
      ∧ s.Id = title := by
  have hb : b.length ≤ 81 := by
    by_contra hgt
    rw [loadSudoku_overflow fs title b hread (by omega)] at hload
    cases hload
  obtain ⟨s1, hs1, hid, hcell, _⟩ := loadSudoku_fits fs title b hread hb
  rw [hs1] at hload
  obtain rfl : s1 = s := by injection hload
  refine ⟨?_, hid⟩
  rw [← cellAt_eq s1.Board i h81, hcell i h81, if_pos hlen, List.getD_eq_getElem _ _ hlen]
  exact byteMinusZero_digit _ (hdigits _ (List.getElem_mem _))

/-- C1, the scenario: the 78-digit board text parses to cell (0,0) = 5, (0,1) = 3 and
(0,2) = 0 with origin flag 1 at (0,0) and 0 at (0,2), under the requested title. -/
theorem loadSudoku_digit_cells_scenario :
    ∃ s, loadSudoku boardsFS "scenario" = .ok s ∧ s.Id = "scenario" ∧
      s.Board 0 0 = 5 ∧ s.Board 0 1 = 3 ∧ s.Board 0 2 = 0 ∧
      s.Flag 0 0 = 1 ∧ s.Flag 0 2 = 0 := by
  obtain ⟨s, hs, _, _, hflag⟩ :=
    loadSudoku_fits boardsFS "scenario" (asciiBytes scenarioBoard) (by rfl) (by decide)
  have hcells := loadSudoku_digit_cells boardsFS "scenario" (asciiBytes scenarioBoard) s
    (by rfl) (by decide) hs
  have h0 : s.Board 0 0 = 5 := (hcells 0 (by decide) (by decide)).1
  have h1 : s.Board 0 1 = 3 := (hcells 1 (by decide) (by decide)).1
  have h2 : s.Board 0 2 = 0 := (hcells 2 (by decide) (by decide)).1
  refine ⟨s, hs, (hcells 0 (by decide) (by decide)).2, h0, h1, h2, ?_, ?_⟩
  · rw [hflag, flagOf, h0]; decide
  · rw [hflag, flagOf, h2]; decide


theorem loadSudoku_flag (fs : FileSystem) (title : String) (s : Sudoku)
    (hload : loadSudoku fs title = .ok s) : s.Flag = computeFlags s.Board := by
  unfold loadSudoku at hload
  dsimp only at hload
  split at hload
  · cases hload
  · cases hload
  · split at hload
    · cases hload
    · cases hload
    · injection hload with h
      subst h
      rfl

theorem loadSudoku_read (fs : FileSystem) (title : String) (s : Sudoku)
    (hload : loadSudoku fs title = .ok s) :
    ∃ b, os.ReadFile fs ("./sudoku/" ++ title ++ ".txt") = .ok b := by
  unfold loadSudoku at hload
  dsimp only at hload
  split at hload
  · cases hload
  · cases hload
  · next body hbody => exact ⟨body, hbody⟩

/-- C2: in every board returned by `loadSudoku`, whatever the file holds, the flag of
a cell is 1 exactly when the cell is not 0 and is 0 otherwise, so that the origin
grid only holds 0 or 1. -/
theorem loadSudoku_flag_iff (fs : FileSystem) (title : String) (s : Sudoku)
    (hload : loadSudoku fs title = .ok s) (i j : Fin 9) :
    (s.Flag i j = 1 ↔ s.Board i j ≠ 0) ∧ (s.Board i j = 0 → s.Flag i j = 0) ∧
      (s.Flag i j = 0 ∨ s.Flag i j = 1) := by
  rw [loadSudoku_flag fs title s hload, computeFlags_apply, flagOf]
  by_cases h : s.Board i j = 0 <;> simp [h]

/-- C2 on the board with two bytes that are not digits: the flags of cells (0,0) and
(0,3) follow their cells. -/
theorem loadSudoku_flag_iff_odd :
    ∃ s, loadSudoku boardsFS "odd" = .ok s ∧
      ((s.Flag 0 0 = 1 ↔ s.Board 0 0 ≠ 0) ∧ (s.Board 0 0 = 0 → s.Flag 0 0 = 0) ∧
        (s.Flag 0 0 = 0 ∨ s.Flag 0 0 = 1)) ∧
      ((s.Flag 0 3 = 1 ↔ s.Board 0 3 ≠ 0) ∧ (s.Board 0 3 = 0 → s.Flag 0 3 = 0) ∧
        (s.Flag 0 3 = 0 ∨ s.Flag 0 3 = 1)) := by
  obtain ⟨s, hs, _⟩ := loadSudoku_fits boardsFS "odd" (asciiBytes "5.x") (by rfl) (by decide)
  exact ⟨s, hs, loadSudoku_flag_iff boardsFS "odd" s hs 0 0,
    loadSudoku_flag_iff boardsFS "odd" s hs 0 3⟩

/-- C5 as stated fails: the board file `long.txt` holds 82 ASCII digits, and
`loadSudoku` panics on it instead of returning a board. -/
theorem loadSudoku_at_least_81_fails :
    ¬ (∀ (fs : FileSystem) (title : String) (b : List Byte),
        os.ReadFile fs ("./sudoku/" ++ title ++ ".txt") = .ok b →
        ∀ (hlen : 81 ≤ b.length), (∀ c ∈ b, 48 ≤ c.val ∧ c.val ≤ 57) →
        ∃ s, loadSudoku fs title = .ok s ∧
          ∀ (i : Nat) (h : i < 81),
            s.Board ⟨i / 9, by omega⟩ ⟨i % 9, Nat.mod_lt _ (by decide)⟩
                = ((b.get ⟨i, by omega⟩).val : Int) - 48 ∧
              0 ≤ s.Board ⟨i / 9, by omega⟩ ⟨i % 9, Nat.mod_lt _ (by decide)⟩ ∧
              s.Board ⟨i / 9, by omega⟩ ⟨i % 9, Nat.mod_lt _ (by decide)⟩ ≤ 9) := by
  intro h
  obtain ⟨s, hs, _⟩ := h boardsFS "long" (asciiBytes (scenarioBoard ++ "1790")) (by rfl)
    (by decide) (by decide)
  rw [loadSudoku_overflow boardsFS "long" _ (by rfl) (by decide)] at hs
  cases hs

/-- C5, amended: for every board file of exactly 81 ASCII digits `loadSudoku` returns
a board in which cell `(i/9, i%9)` holds the value of character `i` for every
`i < 81`, each cell being in the range 0..9. -/
theorem loadSudoku_exactly_81 (fs : FileSystem) (title : String) (b : List Byte)
    (hread : os.ReadFile fs ("./sudoku/" ++ title ++ ".txt") = .ok b)
    (hlen : b.length = 81) (hdigits : ∀ c ∈ b, 48 ≤ c.val ∧ c.val ≤ 57) :
    ∃ s, loadSudoku fs title = .ok s ∧
      ∀ (i : Nat) (h : i < 81),
        s.Board ⟨i / 9, by omega⟩ ⟨i % 9, Nat.mod_lt _ (by decide)⟩
            = ((b.get ⟨i, by omega⟩).val : Int) - 48 ∧
          0 ≤ s.Board ⟨i / 9, by omega⟩ ⟨i % 9, Nat.mod_lt _ (by decide)⟩ ∧
          s.Board ⟨i / 9, by omega⟩ ⟨i % 9, Nat.mod_lt _ (by decide)⟩ ≤ 9 := by
  obtain ⟨s, hs, _, hcell, _⟩ := loadSudoku_fits fs title b hread (by omega)
  refine ⟨s, hs, ?_⟩
  intro i h
  have hi : i < b.length := by omega
  have hd := hdigits _ (List.getElem_mem hi)
  have hv : s.Board ⟨i / 9, by omega⟩ ⟨i % 9, Nat.mod_lt _ (by decide)⟩
      = ((b.get ⟨i, hi⟩).val : Int) - 48 := by
    rw [← cellAt_eq s.Board i h, hcell i h, if_pos hi, List.getD_eq_getElem _ _ hi]
    exact byteMinusZero_digit _ hd
  refine ⟨hv, ?_, ?_⟩
  · rw [hv]; simp only [List.get_eq_getElem]; omega
  · rw [hv]; simp only [List.get_eq_getElem]; omega

/-- C5, amended, on the full board of 81 digits: it loads, and its last cell (8,8)
holds 9. -/
theorem loadSudoku_exactly_81_full :
    ∃ s, loadSudoku boardsFS "full" = .ok s ∧ s.Board 8 8 = 9 ∧ s.Board 0 0 = 5 := by
  obtain ⟨s, hs, hcells⟩ := loadSudoku_exactly_81 boardsFS "full"
    (asciiBytes (scenarioBoard ++ "179")) (by rfl) (by decide) (by decide)
  exact ⟨s, hs, (hcells 80 (by decide)).1, (hcells 0 (by decide)).1⟩

/-- C6 as stated fails: the empty board file is shorter than 81 bytes, and
`loadSudoku` returns a board for it instead of failing. -/
theorem loadSudoku_short_file_loads :
    ¬ (∀ (fs : FileSystem) (title : String) (b : List Byte),
        os.ReadFile fs ("./sudoku/" ++ title ++ ".txt") = .ok b → b.length < 81 →
        ∃ m, loadSudoku fs title = .panic m) := by
  intro h
  obtain ⟨m, hm⟩ := h boardsFS "empty" [] (by rfl) (by decide)
  obtain ⟨s, hs, _⟩ := loadSudoku_fits boardsFS "empty" [] (by rfl) (by decide)
  rw [hs] at hm
  cases hm

/-- C6, amended: `loadSudoku` fails with an out-of-range panic exactly on the board
files longer than 81 bytes; a file shorter than 81 bytes yields a board whose cells
from position `len(b)` on are 0 with flag 0. -/
theorem loadSudoku_panics_iff_long (fs : FileSystem) (title : String) (b : List Byte)
    (hread : os.ReadFile fs ("./sudoku/" ++ title ++ ".txt") = .ok b) :
    ((∃ m, loadSudoku fs title = .panic m) ↔ 81 < b.length) ∧
      (b.length < 81 →
        ∃ s, loadSudoku fs title = .ok s ∧
          ∀ (n : Nat) (h : n < 81), b.length ≤ n →
            s.Board ⟨n / 9, by omega⟩ ⟨n % 9, Nat.mod_lt _ (by decide)⟩ = 0 ∧
              s.Flag ⟨n / 9, by omega⟩ ⟨n % 9, Nat.mod_lt _ (by decide)⟩ = 0) := by
  constructor
  · constructor
    · rintro ⟨m, hm⟩
      by_contra hle
      obtain ⟨s, hs, _⟩ := loadSudoku_fits fs title b hread (by omega)
      rw [hs] at hm
      cases hm
    · intro hgt
      exact ⟨_, loadSudoku_overflow fs title b hread hgt⟩
  · intro hlt
    obtain ⟨s, hs, _, hcell, hflag⟩ := loadSudoku_fits fs title b hread (by omega)
    refine ⟨s, hs, ?_⟩
    intro n h hn
    have hz : s.Board ⟨n / 9, by omega⟩ ⟨n % 9, Nat.mod_lt _ (by decide)⟩ = 0 := by
      rw [← cellAt_eq s.Board n h, hcell n h, if_neg (by omega)]
    refine ⟨hz, ?_⟩
    rw [hflag, flagOf, hz]
    simp

/-- C6, amended, on the 82-byte board, which panics, and the scenario board of 78
bytes, which loads with cell (8,8) empty. -/
theorem loadSudoku_panics_iff_long_samples :
    (∃ m, loadSudoku boardsFS "long" = .panic m) ∧
      ∃ s, loadSudoku boardsFS "scenario" = .ok s ∧ s.Board 8 8 = 0 ∧ s.Flag 8 8 = 0 := by
  have hlong := loadSudoku_panics_iff_long boardsFS "long"
    (asciiBytes (scenarioBoard ++ "1790")) (by rfl)
  have hshort := loadSudoku_panics_iff_long boardsFS "scenario"
    (asciiBytes scenarioBoard) (by rfl)
  obtain ⟨s, hs, hz⟩ := hshort.2 (by decide)
  exact ⟨hlong.1.2 (by decide), s, hs, hz 80 (by decide) (by decide)⟩

/-- C10: for every board file of at most 81 bytes `loadSudoku` returns a board, and
at every position `i` whose byte `c` is not an ASCII digit the cell `(i/9, i%9)`
holds `(c - 48) mod 256`, a value between 10 and 255, with origin flag 1. -/
theorem loadSudoku_non_digit (fs : FileSystem) (title : String) (b : List Byte)
    (hread : os.ReadFile fs ("./sudoku/" ++ title ++ ".txt") = .ok b)
    (hlen : b.length ≤ 81) :
    ∃ s, loadSudoku fs title = .ok s ∧
      ∀ (i : Nat) (hi : i < b.length),
        ¬ (48 ≤ (b.get ⟨i, hi⟩).val ∧ (b.get ⟨i, hi⟩).val ≤ 57) →
        s.Board ⟨i / 9, by omega⟩ ⟨i % 9, Nat.mod_lt _ (by decide)⟩
            = ((((b.get ⟨i, hi⟩).val + 256 - 48) % 256 : Nat) : Int) ∧
          10 ≤ s.Board ⟨i / 9, by omega⟩ ⟨i % 9, Nat.mod_lt _ (by decide)⟩ ∧
          s.Board ⟨i / 9, by omega⟩ ⟨i % 9, Nat.mod_lt _ (by decide)⟩ ≤ 255 ∧
          s.Flag ⟨i / 9, by omega⟩ ⟨i % 9, Nat.mod_lt _ (by decide)⟩ = 1 := by
  obtain ⟨s, hs, _, hcell, hflag⟩ := loadSudoku_fits fs title b hread hlen
  refine ⟨s, hs, ?_⟩
  intro i hi hnd
  have h81 : i < 81 := by omega
  have hv : s.Board ⟨i / 9, by omega⟩ ⟨i % 9, Nat.mod_lt _ (by decide)⟩
      = ((((b.get ⟨i, hi⟩).val + 256 - 48) % 256 : Nat) : Int) := by
    rw [← cellAt_eq s.Board i h81, hcell i h81, if_pos hi, List.getD_eq_getElem _ _ hi]
    rfl
  have hc : (b.get ⟨i, hi⟩).val < 256 := (b.get ⟨i, hi⟩).isLt
  have h10 : 10 ≤ ((b.get ⟨i, hi⟩).val + 256 - 48) % 256 := by omega
  have h255 : ((b.get ⟨i, hi⟩).val + 256 - 48) % 256 ≤ 255 := by omega
  refine ⟨hv, ?_, ?_, ?_⟩
  · rw [hv]; exact_mod_cast h10
  · rw [hv]; exact_mod_cast h255
  · rw [hflag, flagOf, hv]
    have : ((((b.get ⟨i, hi⟩).val + 256 - 48) % 256 : Nat) : Int) ≠ 0 := by
      exact_mod_cast (by omega : ((b.get ⟨i, hi⟩).val + 256 - 48) % 256 ≠ 0)
    rw [if_pos this]

/-- C10 on the board file `5.x`: the byte `.` (46) is stored as 254 and the byte `x`
(120) as 72, both with flag 1. -/
theorem loadSudoku_non_digit_odd :
    ∃ s, loadSudoku boardsFS "odd" = .ok s ∧
      s.Board 0 1 = 254 ∧ s.Flag 0 1 = 1 ∧ s.Board 0 2 = 72 ∧ s.Flag 0 2 = 1 := by
  obtain ⟨s, hs, h⟩ := loadSudoku_non_digit boardsFS "odd" (asciiBytes "5.x") (by rfl)
    (by decide)
  have h1 := h 1 (by decide) (by decide)
  have h2 := h 2 (by decide) (by decide)
  exact ⟨s, hs, h1.1, h1.2.2.2, h2.1, h2.2.2.2⟩

/-! ## Missing pages -/

/-- C9: when `loadPage` returns an error for an identifier, `viewHandler` answers with
a 302 redirect to `"/edit/" + id` and renders nothing, and `editHandler` renders the
`edit` template on the page with that title and an empty body: the missing page
causes no error response, and the response is the template output whenever the
template executes. -/
theorem missing_page_handlers (templates : Template) (fs : FileSystem) (r : Request)
    (title : String) (herr : ∃ e, loadPage fs title = .err e) :
    viewHandler templates fs r title = (fs, .redirect ("/edit/" ++ title) 302) ∧
      editHandler templates fs r title
        = (fs, renderTemplate templates "edit" { Title := title, Body := [] }) ∧
      ∀ out, templates.ExecuteTemplate "edit.html" (.page { Title := title, Body := [] })
          = .ok out →
        editHandler templates fs r title = (fs, .ok out) := by
  obtain ⟨e, he⟩ := herr
  refine ⟨?_, ?_, ?_⟩
  · simp only [viewHandler, he]; rfl
  · simp only [editHandler, he]
  · intro out hout
    have hname : "edit" ++ ".html" = "edit.html" := by decide
    simp only [editHandler, he, renderTemplate, hname, hout]

/-- C9 on the empty pages directory: viewing `FrontPage` redirects to
`/edit/FrontPage`, and editing it renders the `edit` template on an empty page. -/
theorem missing_page_handlers_frontpage :
    viewHandler sampleTemplates emptyPagesFS (request "/view/FrontPage" []) "FrontPage"
        = (emptyPagesFS, .redirect "/edit/FrontPage" 302) ∧
      editHandler sampleTemplates emptyPagesFS (request "/edit/FrontPage" []) "FrontPage"
        = (emptyPagesFS, .ok (asciiBytes "edit.htmlFrontPage")) := by
  have hv := missing_page_handlers sampleTemplates emptyPagesFS
    (request "/view/FrontPage" []) "FrontPage" ⟨_, rfl⟩
  have he := missing_page_handlers sampleTemplates emptyPagesFS
    (request "/edit/FrontPage" []) "FrontPage" ⟨_, rfl⟩
  exact ⟨hv.1, he.2.2 _ rfl⟩

/-! ## The route expression -/

/-- The character class `[a-zA-Z0-9]`. -/
theorem alnum_class (d : Char) :
    inClass [('a', 'z'), ('A', 'Z'), ('0', '9')] d = true ↔ IsAlnum d := by
  simp [IsAlnum, inClass]

theorem run_cls_cons (ranges : List (Char × Char)) (pos : Nat) (d : Char) (t : List Char)
    (caps : List (Nat × List Char)) :
    (Regex.cls ranges).run ⟨pos, d :: t, caps⟩
      = if inClass ranges d then [⟨pos + 1, t, caps⟩] else [] := rfl

theorem run_cls_nil (ranges : List (Char × Char)) (pos : Nat)
    (caps : List (Nat × List Char)) :
    (Regex.cls ranges).run ⟨pos, [], caps⟩ = [] := rfl

theorem run_lit_cons (c : Char) (pos : Nat) (d : Char) (t : List Char)
    (caps : List (Nat × List Char)) :
    (Regex.lit c).run ⟨pos, d :: t, caps⟩ = if d = c then [⟨pos + 1, t, caps⟩] else [] := rfl

theorem run_lit_nil (c : Char) (pos : Nat) (caps : List (Nat × List Char)) :
    (Regex.lit c).run ⟨pos, [], caps⟩ = [] := rfl

/-- Every way a literal can match consumes exactly that character. -/
theorem mem_run_lit (c : Char) (st st1 : MatchState) (h : st1 ∈ (Regex.lit c).run st) :
    st.rest = c :: st1.rest ∧ st1.pos = st.pos + 1 ∧ st1.caps = st.caps := by
  obtain ⟨pos, rest, caps⟩ := st
  cases rest with
  | nil => rw [run_lit_nil] at h; cases h
  | cons d t =>
    rw [run_lit_cons] at h
    by_cases hd : d = c
    · rw [if_pos hd, List.mem_singleton] at h
      subst h; subst hd
      exact ⟨rfl, rfl, rfl⟩
    · rw [if_neg hd] at h; cases h

/-- Every way a literal string can match consumes exactly that string. -/
theorem mem_run_str (v : List Char) : ∀ (st st1 : MatchState),
    st1 ∈ (Regex.str v).run st →
    st.rest = v ++ st1.rest ∧ st1.pos = st.pos + v.length ∧ st1.caps = st.caps := by
  induction v with
  | nil =>
    intro st st1 h
    simp only [Regex.str, Regex.run, List.mem_singleton] at h
    subst h
    exact ⟨rfl, rfl, rfl⟩
  | cons c cs ih =>
    intro st st1 h
    simp only [Regex.str, Regex.run, List.mem_flatMap] at h
    obtain ⟨st2, h2, h3⟩ := h
    obtain ⟨a1, a2, a3⟩ := mem_run_lit c st st2 h2
    obtain ⟨b1, b2, b3⟩ := ih st2 st1 h3
    refine ⟨?_, ?_, ?_⟩
    · rw [a1, b1]; rfl
    · rw [b2, a2, List.length_cons]; omega
    · rw [b3, a3]

/-- Every way the repeated class can match consumes a non-empty run of characters of
the class. -/
theorem mem_plusLoop_cls (ranges : List (Char × Char)) : ∀ (n : Nat) (st st1 : MatchState),
    st1 ∈ plusLoop (Regex.cls ranges).run n st →
    ∃ w, w ≠ [] ∧
      (∀ c ∈ w, inClass ranges c = true) ∧
      st.rest = w ++ st1.rest ∧ st1.caps = st.caps := by
  intro n
  induction n with
  | zero => intro st st1 h; simp [plusLoop] at h
  | succ n ih =>
    intro st st1 h
    obtain ⟨pos, rest, caps⟩ := st
    cases rest with
    | nil => simp [plusLoop, run_cls_nil] at h
    | cons d t =>
      simp only [plusLoop, run_cls_cons] at h
      by_cases hd : inClass ranges d = true
      · rw [if_pos hd] at h
        simp only [List.flatMap_cons, List.flatMap_nil, List.append_nil, List.mem_append,
          List.mem_singleton] at h
        rcases h with h | h
        · obtain ⟨w, _, hw, hrest, hcaps⟩ := ih _ _ h
          refine ⟨d :: w, by simp, ?_, ?_, hcaps⟩
          · intro c hc
            rcases List.mem_cons.1 hc with rfl | hc
            · exact hd
            · exact hw c hc
          · simp only at hrest
            simp [hrest]
        · subst h
          exact ⟨[d], by simp, by simpa using hd, rfl, rfl⟩
      · rw [if_neg hd] at h
        simp at h

/-- The repeated class followed by the end of the text: the only match is the whole
remaining text, when it is a non-empty run of characters of the class. -/
theorem plusLoop_cls_eol (ranges : List (Char × Char)) (f : MatchState → MatchState)
    (hf : ∀ st, (f st).rest = st.rest) :
    ∀ (id : List Char) (n pos : Nat) (caps : List (Nat × List Char)), id.length ≤ n →
      ((plusLoop (Regex.cls ranges).run n ⟨pos, id, caps⟩).map f).flatMap Regex.eol.run
        = if id ≠ [] ∧ ∀ c ∈ id, inClass ranges c = true
          then [f ⟨pos + id.length, [], caps⟩] else [] := by
  intro id
  induction id with
  | nil =>
    intro n pos caps _
    cases n <;> simp [plusLoop, run_cls_nil]
  | cons d t ih =>
    intro n pos caps hn
    cases n with
    | zero => simp at hn
    | succ n =>
      have hn1 : t.length ≤ n := by simpa using hn
      simp only [plusLoop, run_cls_cons]
      by_cases hd : inClass ranges d = true
      · rw [if_pos hd]
        simp only [List.flatMap_cons, List.flatMap_nil, List.append_nil, List.map_append,
          List.flatMap_append, List.map_cons, List.map_nil]
        rw [ih n (pos + 1) caps hn1]
        by_cases ht : t = []
        · subst ht
          simp [Regex.run, hf, hd]
        · have hlen : pos + 1 + t.length = pos + (d :: t).length := by
            simp only [List.length_cons]; omega
          simp [Regex.run, hf, hd, ht, hlen]
      · rw [if_neg hd]
        simp [hd]


/-- The part of the route expression after the verb: a slash, then the identifier
up to the end of the text. -/
theorem run_identifier (pos : Nat) (cs : List Char) (caps : List (Nat × List Char)) :
    (Regex.seq (.lit '/')
      (.seq (.group 2 (.plus (.cls [('a', 'z'), ('A', 'Z'), ('0', '9')]))) .eol)).run
        ⟨pos, '/' :: cs, caps⟩
      = if cs ≠ [] ∧ ∀ c ∈ cs, inClass [('a', 'z'), ('A', 'Z'), ('0', '9')] c = true
        then [⟨pos + 1 + cs.length, [], (2, cs) :: caps⟩] else [] := by
  have h := plusLoop_cls_eol [('a', 'z'), ('A', 'Z'), ('0', '9')]
    (fun st1 : MatchState =>
      { st1 with caps := (2, cs.take (st1.pos - (pos + 1))) :: st1.caps })
    (fun _ => rfl) cs cs.length (pos + 1) caps (Nat.le_refl _)
  have hrun : (Regex.seq (.lit '/')
      (.seq (.group 2 (.plus (.cls [('a', 'z'), ('A', 'Z'), ('0', '9')]))) .eol)).run
        ⟨pos, '/' :: cs, caps⟩
      = ((plusLoop (Regex.cls [('a', 'z'), ('A', 'Z'), ('0', '9')]).run cs.length
            ⟨pos + 1, cs, caps⟩).map
          (fun st1 : MatchState =>
            { st1 with caps := (2, cs.take (st1.pos - (pos + 1))) :: st1.caps })).flatMap
          Regex.eol.run := by
    simp [Regex.run]
  rw [hrun, h]
  simp

/-- The verb group of the route expression on a text that starts with one of the four
verbs followed by a slash. -/
theorem run_verb (v : List Char)
    (hv : v ∈ ["edit".data, "save".data, "view".data, "sudoku".data]) (cs : List Char) :
    (Regex.group 1
        (.alt (Regex.str "edit".data)
          (.alt (Regex.str "save".data)
            (.alt (Regex.str "view".data) (Regex.str "sudoku".data))))).run
        ⟨1, v ++ '/' :: cs, []⟩
      = [⟨1 + v.length, '/' :: cs, [(1, v)]⟩] := by
  simp only [List.mem_cons, List.mem_singleton, List.not_mem_nil, or_false] at hv
  rcases hv with rfl | rfl | rfl | rfl <;> simp [Regex.run, Regex.str]


theorem run_seq (a b : Regex) (st : MatchState) :
    (Regex.seq a b).run st = (a.run st).flatMap b.run := rfl

theorem run_bol (st : MatchState) :
    Regex.bol.run st = if st.pos = 0 then [st] else [] := rfl

theorem run_eol (st : MatchState) :
    Regex.eol.run st = if st.rest = [] then [st] else [] := rfl

theorem run_alt (a b : Regex) (st : MatchState) :
    (Regex.alt a b).run st = a.run st ++ b.run st := rfl

theorem run_plus (a : Regex) (st : MatchState) :
    (Regex.plus a).run st = plusLoop a.run st.rest.length st := rfl

theorem run_group (n : Nat) (a : Regex) (st : MatchState) :
    (Regex.group n a).run st
      = (a.run st).map (fun st1 =>
          { st1 with caps := (n, st.rest.take (st1.pos - st.pos)) :: st1.caps }) := rfl

/-- The route expression on a text of the form `/verb/identifier`: one match, which
spans the text and captures the verb and the identifier. -/
theorem run_validPath_route (v : List Char)
    (hv : v ∈ ["edit".data, "save".data, "view".data, "sudoku".data]) (cs : List Char)
    (hne : cs ≠ []) (hal : ∀ c ∈ cs, IsAlnum c) :
    validPath.expr.run ⟨0, '/' :: (v ++ '/' :: cs), []⟩
      = [⟨1 + v.length + 1 + cs.length, [], [(2, cs), (1, v)]⟩] := by
  have h1 : validPath.expr.run ⟨0, '/' :: (v ++ '/' :: cs), []⟩
      = ((Regex.group 1
            (.alt (Regex.str "edit".data)
              (.alt (Regex.str "save".data)
                (.alt (Regex.str "view".data) (Regex.str "sudoku".data))))).run
          ⟨1, v ++ '/' :: cs, []⟩).flatMap
        (Regex.seq (.lit '/')
          (.seq (.group 2 (.plus (.cls [('a', 'z'), ('A', 'Z'), ('0', '9')]))) .eol)).run := by
    simp only [validPath, run_seq, run_bol, run_lit_cons, if_true, List.flatMap_cons,
      List.flatMap_nil, List.append_nil, Nat.zero_add]
  rw [h1, run_verb v hv cs, List.flatMap_cons, List.flatMap_nil, List.append_nil,
    run_identifier, if_pos ⟨hne, fun c hc => (alnum_class c).2 (hal c hc)⟩]

/-- No match of the route expression starts after the first character. -/
theorem matchAt_validPath_succ (text : List Char) (start : Nat) :
    validPath.matchAt text (start + 1) = none := by
  simp [Regexp.matchAt, validPath, run_seq, run_bol]

theorem findStringSubmatch_eq_matchAt_zero (s : String) :
    validPath.FindStringSubmatch s = validPath.matchAt s.data 0 := by
  unfold Regexp.FindStringSubmatch
  rw [List.range_succ_eq_map, List.findSome?_cons]
  cases h : validPath.matchAt s.data 0 with
  | some m => rfl
  | none =>
    simp only
    rw [List.findSome?_map]
    induction List.range s.data.length with
    | nil => rfl
    | cons a l ih =>
      rw [List.findSome?_cons]
      simp only [Function.comp, matchAt_validPath_succ]
      exact ih

/-- A path of the route grammar is matched, and the submatches are the path, the verb
and the identifier. -/
theorem findStringSubmatch_of_grammar (path verb id : String)
    (h : RouteGrammar path verb id) :
    validPath.FindStringSubmatch path = some [path, verb, id] := by
  obtain ⟨hv, hne, hal, rfl⟩ := h
  have hv1 : verb.data ∈ ["edit".data, "save".data, "view".data, "sudoku".data] := by
    simp only [List.mem_cons, List.mem_singleton, List.not_mem_nil, or_false] at hv ⊢
    rcases hv with rfl | rfl | rfl | rfl <;> simp
  have hdata : ("/" ++ verb ++ "/" ++ id).data = '/' :: (verb.data ++ '/' :: id.data) := by
    simp [String.data_append]
  rw [findStringSubmatch_eq_matchAt_zero, hdata]
  unfold Regexp.matchAt
  rw [List.drop_zero, run_validPath_route verb.data hv1 id.data hne hal]
  have hlen : 1 + verb.data.length + 1 + id.data.length - 0
      = ('/' :: (verb.data ++ '/' :: id.data)).length := by
    simp only [List.length_cons, List.length_append]; omega
  simp only [hlen, List.take_length]
  have hpath : "/" ++ verb ++ "/" ++ id = String.mk ('/' :: (verb.data ++ '/' :: id.data)) := by
    rw [← hdata]
  rw [hpath]
  simp [validPath, List.range_succ, List.lookup]

/-- A path that is matched belongs to the route grammar. -/
theorem grammar_of_findStringSubmatch (path : String) (m : List String)
    (h : validPath.FindStringSubmatch path = some m) :
    ∃ verb id, RouteGrammar path verb id := by
  rw [findStringSubmatch_eq_matchAt_zero] at h
  unfold Regexp.matchAt at h
  rw [List.drop_zero] at h
  cases hrun : validPath.expr.run ⟨0, path.data, []⟩ with
  | nil => rw [hrun] at h; cases h
  | cons st sts =>
    have hmem : st ∈ validPath.expr.run ⟨0, path.data, []⟩ := by rw [hrun]; simp
    simp only [validPath, run_seq, List.mem_flatMap] at hmem
    obtain ⟨st1, hbol, st2, hslash, st3, hgroup, st4, hslash2, st5, hid, heol⟩ := hmem
    have hst1 : st1 = ⟨0, path.data, []⟩ := by simpa [run_bol] using hbol
    subst hst1
    obtain ⟨a1, a2, a3⟩ := mem_run_lit _ _ _ hslash
    simp only [run_group, run_alt, List.mem_map, List.mem_append] at hgroup
    obtain ⟨st3a, hverb, rfl⟩ := hgroup
    obtain ⟨b1, b2, b3⟩ := mem_run_lit _ _ _ hslash2
    simp only [run_group, run_plus, List.mem_map] at hid
    obtain ⟨st5a, hplus, rfl⟩ := hid
    obtain ⟨w, hw, hcls, c1, c2⟩ := mem_plusLoop_cls _ _ _ _ hplus
    have hend : st5a.rest = [] := by
      by_contra hne
      rw [run_eol, if_neg hne] at heol
      cases heol
    have a1 : path.data = '/' :: st2.rest := a1
    have b1 : st3a.rest = '/' :: st4.rest := b1
    have key : ∀ v : List Char,
        v ∈ ["edit".data, "save".data, "view".data, "sudoku".data] →
        st3a ∈ (Regex.str v).run st2 →
        ∃ verb id, RouteGrammar path verb id := by
      intro v hv hin
      obtain ⟨d1, d2, d3⟩ := mem_run_str v st2 st3a hin
      refine ⟨String.mk v, String.mk w, ?_, hw, fun c hc => (alnum_class c).1 (hcls c hc), ?_⟩
      · simp only [List.mem_cons, List.mem_singleton, List.not_mem_nil, or_false] at hv ⊢
        rcases hv with rfl | rfl | rfl | rfl <;> simp
      · apply String.ext
        rw [String.data_append, String.data_append, String.data_append, a1, d1, b1, c1, hend]
        simp
    rcases hverb with hverb | hverb | hverb | hverb
    · exact key "edit".data (by simp) hverb
    · exact key "save".data (by simp) hverb
    · exact key "view".data (by simp) hverb
    · exact key "sudoku".data (by simp) hverb

/-! ## The pages store -/

theorem char_le_iff (a b : Char) : a ≤ b ↔ a.toNat ≤ b.toNat := Iff.rfl

/-- Lower-casing an ASCII letter or digit never gives a slash. -/
theorem toLower_ne_slash (c : Char) (h : IsAlnum c) : c.toLower ≠ '/' := by
  intro hc
  have h47 : c.toLower.toNat = 47 := by rw [hc]; rfl
  unfold IsAlnum at h
  simp only [char_le_iff] at h
  have e1 : 'a'.toNat = 97 := rfl
  have e2 : 'z'.toNat = 122 := rfl
  have e3 : 'A'.toNat = 65 := rfl
  have e4 : 'Z'.toNat = 90 := rfl
  have e5 : '0'.toNat = 48 := rfl
  have e6 : '9'.toNat = 57 := rfl
  rw [e1, e2, e3, e4, e5, e6] at h
  unfold Char.toLower at h47
  by_cases hu : c.toNat ≥ 65 ∧ c.toNat ≤ 90
  · simp only [hu, and_self, if_true] at h47
    obtain ⟨h1, h2⟩ := hu
    clear h hc
    generalize c.toNat = n at *
    interval_cases n <;> revert h47 <;> decide
  · simp only [hu, if_false] at h47
    omega

theorem dropWhile_append_of_all {α : Type} (p : α → Bool) (l1 l2 : List α)
    (h : ∀ x ∈ l1, p x = true) : (l1 ++ l2).dropWhile p = l2.dropWhile p := by
  induction l1 with
  | nil => rfl
  | cons a l ih =>
    have ha : p a = true := h a (by simp)
    rw [List.cons_append, List.dropWhile_cons, if_pos ha]
    exact ih (fun x hx => h x (by simp [hx]))

theorem takeWhile_append_of_all {α : Type} (p : α → Bool) (l1 l2 : List α)
    (h : ∀ x ∈ l1, p x = true) : (l1 ++ l2).takeWhile p = l1 ++ l2.takeWhile p := by
  induction l1 with
  | nil => rfl
  | cons a l ih =>
    have ha : p a = true := h a (by simp)
    rw [List.cons_append, List.takeWhile_cons, if_pos ha, ih (fun x hx => h x (by simp [hx]))]
    rfl

/-- The directory of `d/base` is `d` when `base` holds no slash. -/
theorem dirOf_append (d base : List Char) (h : ∀ c ∈ base, c ≠ '/') :
    dirOf (d ++ '/' :: base) = d := by
  unfold dirOf
  rw [List.reverse_append, List.reverse_cons, List.append_assoc,
    dropWhile_append_of_all _ _ _ (by
      intro x hx
      have := h x (List.mem_reverse.1 hx)
      simpa using this)]
  simp

/-- The last element of `d/base` is `base` when `base` holds no slash. -/
theorem baseOf_append (d base : List Char) (h : ∀ c ∈ base, c ≠ '/') :
    baseOf (d ++ '/' :: base) = base := by
  unfold baseOf
  rw [List.reverse_append, List.reverse_cons, List.append_assoc,
    takeWhile_append_of_all _ _ _ (by
      intro x hx
      have := h x (List.mem_reverse.1 hx)
      simpa using this)]
  simp

theorem lookup_upsert_self (name : String) (data : List Byte) :
    ∀ files : List (String × List Byte), (upsert name data files).lookup name = some data := by
  intro files
  induction files with
  | nil => simp [upsert, List.lookup]
  | cons e rest ih =>
    obtain ⟨n, d⟩ := e
    by_cases hn : n = name
    · simp [upsert, hn, List.lookup]
    · have hne : (name == n) = false := by simpa using fun h => hn h.symm
      simp only [upsert, if_neg hn, List.lookup, hne]
      exact ih

theorem lookup_upsert_other (name other : String) (data : List Byte) (h : other ≠ name) :
    ∀ files : List (String × List Byte),
      (upsert name data files).lookup other = files.lookup other := by
  intro files
  induction files with
  | nil =>
    have hne : (other == name) = false := by simpa using h
    simp [upsert, List.lookup, hne]
  | cons e rest ih =>
    obtain ⟨n, d⟩ := e
    by_cases hn : n = name
    · subst hn
      have hne : (other == n) = false := by simpa using h
      simp [upsert, List.lookup, hne]
    · simp only [upsert, if_neg hn, List.lookup]
      cases hb : other == n with
      | true => rfl
      | false => exact ih

theorem mem_upsert (name : String) (data : List Byte) :
    ∀ files : List (String × List Byte), (name, data) ∈ upsert name data files := by
  intro files
  induction files with
  | nil => simp [upsert]
  | cons e rest ih =>
    obtain ⟨n, d⟩ := e
    by_cases hn : n = name
    · simp [upsert, hn]
    · simp only [upsert, if_neg hn]
      exact List.mem_cons_of_mem _ ih

theorem of_mem_upsert (name : String) (data : List Byte) (e : String × List Byte) :
    ∀ files : List (String × List Byte), e ∈ upsert name data files →
      e = (name, data) ∨ e ∈ files := by
  intro files
  induction files with
  | nil => intro h; simpa [upsert] using h
  | cons x rest ih =>
    obtain ⟨n, d⟩ := x
    intro h
    by_cases hn : n = name
    · simp only [upsert, if_pos hn, List.mem_cons] at h
      rcases h with h | h
      · exact Or.inl h
      · exact Or.inr (List.mem_cons_of_mem _ h)
    · simp only [upsert, if_neg hn, List.mem_cons] at h
      rcases h with h | h
      · exact Or.inr (by simp [h])
      · rcases ih h with h1 | h1
        · exact Or.inl h1
        · exact Or.inr (List.mem_cons_of_mem _ h1)

theorem mem_insertSorted (a x : String) :
    ∀ l : List String, x ∈ insertSorted a l ↔ x = a ∨ x ∈ l := by
  intro l
  induction l with
  | nil => simp [insertSorted]
  | cons b rest ih =>
    by_cases hab : nameLE a.data b.data = true
    · simp [insertSorted, hab]
    · simp only [insertSorted, if_neg hab, List.mem_cons, ih]
      tauto

theorem mem_foldr_insertSorted (x : String) :
    ∀ l : List String, x ∈ l.foldr insertSorted [] ↔ x ∈ l := by
  intro l
  induction l with
  | nil => simp
  | cons a rest ih => simp [mem_insertSorted, ih]

/-- The entries of a directory are the base names of the files stored in it. -/
theorem mem_readDir (fs : FileSystem) (dir : String) (entries : List String)
    (h : os.ReadDir fs dir = .ok entries) (x : String) :
    x ∈ entries ↔
      ∃ e ∈ fs.files, String.mk (dirOf e.1.data) = dir ∧ x = String.mk (baseOf e.1.data) := by
  unfold os.ReadDir at h
  by_cases hd : dir ∈ fs.dirs
  · rw [if_pos hd] at h
    injection h with h
    subst h
    rw [mem_foldr_insertSorted, List.mem_filterMap]
    constructor
    · rintro ⟨e, he, hx⟩
      by_cases hdir : String.mk (dirOf e.1.data) = dir
      · rw [if_pos hdir] at hx
        injection hx with hx
        exact ⟨e, he, hdir, hx.symm⟩
      · rw [if_neg hdir] at hx
        cases hx
    · rintro ⟨e, he, hdir, hx⟩
      exact ⟨e, he, by rw [if_pos hdir, hx]⟩
  · rw [if_neg hd] at h
    cases h

theorem trimSuffix_append (s suffix : String) :
    strings.TrimSuffix (s ++ suffix) suffix = s := by
  unfold strings.TrimSuffix
  have hsuf : suffix.data.isSuffixOf (s ++ suffix).data = true := by
    rw [List.isSuffixOf_iff_suffix, String.data_append]
    exact List.suffix_append _ _
  rw [if_pos hsuf]
  apply String.ext
  simp [String.data_append]

/-- The loop of `loadAllPages` succeeds when every entry loads, and then returns the
page of each entry. -/
theorem loadPages_ok (fs : FileSystem) : ∀ files : List String,
    (∀ e ∈ files, ∃ pg, loadPage fs (strings.TrimSuffix e ".txt") = .ok pg) →
    ∃ pages, loadPages fs files = .ok pages ∧
      ∀ e ∈ files, ∀ pg, loadPage fs (strings.TrimSuffix e ".txt") = .ok pg → pg ∈ pages := by
  intro files
  induction files with
  | nil => intro _; exact ⟨[], rfl, fun e he => by cases he⟩
  | cons file rest ih =>
    intro h
    obtain ⟨p, hp⟩ := h file (by simp)
    obtain ⟨pages, hpages, hall⟩ := ih (fun e he => h e (by simp [he]))
    refine ⟨p :: pages, ?_, ?_⟩
    · simp only [loadPages, hp, hpages]
    · intro e he pg hpg
      rcases List.mem_cons.1 he with rfl | he
      · rw [hp] at hpg
        injection hpg with hpg
        simp [hpg]
      · exact List.mem_cons_of_mem _ (hall e he pg hpg)


theorem loadPage_of_read (fs : FileSystem) (title : String) (b : List Byte)
    (h : os.ReadFile fs ("./data/" ++ title ++ ".txt") = .ok b) :
    loadPage fs title = .ok { Title := title, Body := b } := by
  simp only [loadPage, h]

theorem read_of_loadPage (fs : FileSystem) (title : String) (pg : Page)
    (h : loadPage fs title = .ok pg) :
    ∃ b, os.ReadFile fs ("./data/" ++ title ++ ".txt") = .ok b := by
  unfold loadPage at h
  dsimp only at h
  split at h
  · cases h
  · cases h
  · next body hbody => exact ⟨body, hbody⟩

theorem readFile_ok_iff (fs : FileSystem) (name : String) (b : List Byte) :
    os.ReadFile fs name = .ok b ↔ fs.files.lookup name = some b := by
  unfold os.ReadFile
  cases h : fs.files.lookup name with
  | none => simp
  | some v => simp

/-- The file written by `Page.save` for an alphanumeric title lies directly inside
`./data`, under the lower-cased title followed by `.txt`. -/
theorem save_target (X : String) (halnum : ∀ c ∈ X.data, IsAlnum c) :
    String.mk (dirOf ("./data/" ++ strings.ToLower X ++ ".txt").data) = "./data" ∧
      String.mk (baseOf ("./data/" ++ strings.ToLower X ++ ".txt").data)
        = strings.ToLower X ++ ".txt" := by
  have hdata : ("./data/" ++ strings.ToLower X ++ ".txt").data
      = "./data".data ++ '/' :: (strings.ToLower X ++ ".txt").data := by
    simp [String.data_append]
  have hbase : ∀ c ∈ (strings.ToLower X ++ ".txt").data, c ≠ '/' := by
    intro c hc
    rw [String.data_append, List.mem_append] at hc
    rcases hc with hc | hc
    · simp only [strings.ToLower, List.mem_map] at hc
      obtain ⟨a, ha, rfl⟩ := hc
      exact toLower_ne_slash a (halnum a ha)
    · revert c
      decide
  rw [hdata, dirOf_append _ _ hbase, baseOf_append _ _ hbase]
  exact ⟨rfl, rfl⟩

/-- C8: in a pages store whose every entry loads, `Page.save` of an alphanumeric
identifier `X` with body `B` writes `B` to `./data/lowercase(X).txt` and leaves every
other file as it was, so that `loadAllPages` then succeeds and lists a page titled
`lowercase(X)` with body `B`. -/
theorem save_then_list (fs : FileSystem) (X : String) (B : List Byte)
    (entries : List String)
    (halnum : ∀ c ∈ X.data, IsAlnum c)
    (hdir : os.ReadDir fs "./data" = .ok entries)
    (hload : ∀ e ∈ entries, ∃ pg, loadPage fs (strings.TrimSuffix e ".txt") = .ok pg) :
    ∃ fs1, Page.save fs { Title := X, Body := B } = (fs1, none) ∧
      os.ReadFile fs1 ("./data/" ++ strings.ToLower X ++ ".txt") = .ok B ∧
      (∀ name, name ≠ "./data/" ++ strings.ToLower X ++ ".txt" →
        os.ReadFile fs1 name = os.ReadFile fs name) ∧
      ∃ pages, loadAllPages fs1 = .ok pages ∧
        { Title := strings.ToLower X, Body := B } ∈ pages := by
  obtain ⟨htdir, htbase⟩ := save_target X halnum
  have hdirs : "./data" ∈ fs.dirs := by
    by_contra hno
    simp only [os.ReadDir, if_neg hno] at hdir
    cases hdir
  have hself : os.ReadFile
      { fs with files := upsert ("./data/" ++ strings.ToLower X ++ ".txt") B fs.files }
      ("./data/" ++ strings.ToLower X ++ ".txt") = .ok B := by
    rw [readFile_ok_iff]
    exact lookup_upsert_self _ _ _
  have hother : ∀ name, name ≠ "./data/" ++ strings.ToLower X ++ ".txt" →
      os.ReadFile
        { fs with files := upsert ("./data/" ++ strings.ToLower X ++ ".txt") B fs.files } name
        = os.ReadFile fs name := by
    intro name hne
    simp only [os.ReadFile, lookup_upsert_other _ _ _ hne]
  refine ⟨{ fs with files := upsert ("./data/" ++ strings.ToLower X ++ ".txt") B fs.files },
    ?_, hself, hother, ?_⟩
  · simp only [Page.save, os.WriteFile, htdir, if_pos hdirs]
  · have hdir1 : os.ReadDir
        { fs with files := upsert ("./data/" ++ strings.ToLower X ++ ".txt") B fs.files }
        "./data" = .ok ((((upsert ("./data/" ++ strings.ToLower X ++ ".txt") B fs.files).filterMap
          (fun e => if String.mk (dirOf e.1.data) = "./data"
            then some (String.mk (baseOf e.1.data)) else none)).foldr insertSorted [])) := by
      simp only [os.ReadDir, if_pos hdirs]
    have hall : ∀ e ∈ (((upsert ("./data/" ++ strings.ToLower X ++ ".txt") B fs.files).filterMap
          (fun e => if String.mk (dirOf e.1.data) = "./data"
            then some (String.mk (baseOf e.1.data)) else none)).foldr insertSorted []),
        ∃ pg, loadPage
          { fs with files := upsert ("./data/" ++ strings.ToLower X ++ ".txt") B fs.files }
          (strings.TrimSuffix e ".txt") = .ok pg := by
      intro e he
      obtain ⟨f, hf, hfd, hfb⟩ := (mem_readDir _ _ _ hdir1 e).1 he
      rcases of_mem_upsert _ _ _ _ hf with hf1 | hf1
      · subst hf1
        simp only at hfb
        rw [htbase] at hfb
        rw [hfb, trimSuffix_append]
        exact ⟨_, loadPage_of_read _ _ _ hself⟩
      · have hmem : e ∈ entries := (mem_readDir fs "./data" entries hdir e).2 ⟨f, hf1, hfd, hfb⟩
        obtain ⟨pg, hpg⟩ := hload e hmem
        obtain ⟨b, hb⟩ := read_of_loadPage _ _ _ hpg
        by_cases hsame : "./data/" ++ strings.TrimSuffix e ".txt" ++ ".txt"
            = "./data/" ++ strings.ToLower X ++ ".txt"
        · refine ⟨_, loadPage_of_read _ _ B ?_⟩
          rw [hsame]
          exact hself
        · refine ⟨_, loadPage_of_read _ _ b ?_⟩
          rw [hother _ hsame]
          exact hb
    obtain ⟨pages, hpages, hin⟩ := loadPages_ok _ _ hall
    refine ⟨pages, ?_, ?_⟩
    · simp only [loadAllPages, hdir1]
      exact hpages
    · have hentry : strings.ToLower X ++ ".txt" ∈
          (((upsert ("./data/" ++ strings.ToLower X ++ ".txt") B fs.files).filterMap
            (fun e => if String.mk (dirOf e.1.data) = "./data"
              then some (String.mk (baseOf e.1.data)) else none)).foldr insertSorted []) :=
        (mem_readDir _ _ _ hdir1 _).2
          ⟨("./data/" ++ strings.ToLower X ++ ".txt", B), mem_upsert _ _ _, htdir, htbase.symm⟩
      have hpage := hin _ hentry { Title := strings.ToLower X, Body := B } (by
        rw [trimSuffix_append]
        exact loadPage_of_read _ _ _ hself)
      exact hpage

/-- C8, the scenario: in the store that holds `notes` and `about`, saving id `Home`
with body `hello` writes `./data/home.txt`, and the listing then includes the page
titled `home`. -/
theorem save_then_list_home :
    ∃ fs1, Page.save pagesFS { Title := "Home", Body := asciiBytes "hello" } = (fs1, none) ∧
      os.ReadFile fs1 "./data/home.txt" = .ok (asciiBytes "hello") ∧
      ∃ pages, loadAllPages fs1 = .ok pages ∧
        { Title := "home", Body := asciiBytes "hello" } ∈ pages := by
  obtain ⟨fs1, hsave, hread, _, pages, hpages, hin⟩ :=
    save_then_list pagesFS "Home" (asciiBytes "hello") ["about.txt", "notes.txt"]
      (by decide) (by decide) (by
        intro e he
        simp only [List.mem_cons, List.mem_singleton, List.not_mem_nil, or_false] at he
        rcases he with rfl | rfl <;> exact ⟨_, rfl⟩)
  exact ⟨fs1, hsave, hread, pages, hpages, hin⟩

/-! ## Dispatch -/

/-- A path outside the route grammar is not matched. -/
theorem findStringSubmatch_none (path : String)
    (h : ¬ ∃ verb id, RouteGrammar path verb id) :
    validPath.FindStringSubmatch path = none := by
  cases hm : validPath.FindStringSubmatch path with
  | none => rfl
  | some m => exact absurd (grammar_of_findStringSubmatch path m hm) h

theorem makeHandler_of_match (fn : TitleHandler) (fs : FileSystem) (r : Request)
    (verb id : String) (h : RouteGrammar r.URL.Path verb id) :
    makeHandler fn fs r = fn fs r id := by
  simp only [makeHandler, findStringSubmatch_of_grammar _ verb id h]
  rfl

theorem makeHandler_of_no_match (fn : TitleHandler) (fs : FileSystem) (r : Request)
    (h : ¬ ∃ verb id, RouteGrammar r.URL.Path verb id) :
    makeHandler fn fs r = (fs, http.NotFound) := by
  simp only [makeHandler, findStringSubmatch_none _ h]

/-- C3: the wrapper built by `makeHandler fn` calls `fn` exactly on the paths of the
form `"/" + verb + "/" + id` with the verb one of edit, save, view, sudoku and the id a
non-empty string of ASCII letters and digits, and passes that id; on every other path
it answers Not Found, whatever `fn` is, and leaves the file system as it was. -/
theorem makeHandler_dispatch (fn : TitleHandler) (fs : FileSystem) (r : Request) :
    (∀ verb id, RouteGrammar r.URL.Path verb id → makeHandler fn fs r = fn fs r id) ∧
      ((¬ ∃ verb id, RouteGrammar r.URL.Path verb id) →
        makeHandler fn fs r = (fs, http.NotFound)) := by
  exact ⟨fun verb id h => makeHandler_of_match fn fs r verb id h,
    fun h => makeHandler_of_no_match fn fs r h⟩

/-- C3 on two paths: `/view/notes` is passed on with the id `notes`, and
`/view/my-notes`, whose last part is not alphanumeric, is answered Not Found. -/
theorem makeHandler_dispatch_samples :
    makeHandler (viewHandler sampleTemplates) pagesFS (request "/view/notes" [])
        = viewHandler sampleTemplates pagesFS (request "/view/notes" []) "notes" ∧
      makeHandler (viewHandler sampleTemplates) pagesFS (request "/view/my-notes" [])
        = (pagesFS, http.NotFound) := by
  refine ⟨(makeHandler_dispatch _ pagesFS (request "/view/notes" [])).1 "view" "notes"
      (by unfold RouteGrammar; decide),
    (makeHandler_dispatch _ pagesFS (request "/view/my-notes" [])).2 ?_⟩
  rintro ⟨verb, id, h⟩
  have hfind := findStringSubmatch_of_grammar _ verb id h
  have hnone : validPath.FindStringSubmatch (request "/view/my-notes" []).URL.Path = none := by
    decide
  rw [hnone] at hfind
  cases hfind

/-! ## Saving and viewing -/

/-- C4 at the identifier `FrontPage`, the one `rootHandler` redirects to: in an empty
pages store, saving the body `hello` writes `./data/frontpage.txt`, and loading
`FrontPage` then fails, as `./data/FrontPage.txt` does not exist; the request to view
the saved page is redirected to its edit form. -/
theorem save_then_view_frontpage :
    Page.save emptyPagesFS { Title := "FrontPage", Body := asciiBytes "hello" }
        = ({ dirs := ["./data", "./sudoku"],
             files := [("./data/frontpage.txt", asciiBytes "hello")] }, none) ∧
      loadPage { dirs := ["./data", "./sudoku"],
                 files := [("./data/frontpage.txt", asciiBytes "hello")] } "FrontPage"
        = .err (.notExist "open" "./data/FrontPage.txt") ∧
      serve sampleTemplates emptyPagesFS (request "/save/FrontPage" (asciiBytes "hello"))
        = ({ dirs := ["./data", "./sudoku"],
             files := [("./data/frontpage.txt", asciiBytes "hello")] },
           .redirect "/view/FrontPage" 302) ∧
      (serve sampleTemplates
          { dirs := ["./data", "./sudoku"],
            files := [("./data/frontpage.txt", asciiBytes "hello")] }
          (request "/view/FrontPage" [])).2
        = .redirect "/edit/FrontPage" 302 := by
  refine ⟨by decide, by decide, by decide, by decide⟩

/-- The round trip holds for the identifiers that lower-casing leaves unchanged: after
`Page.save` of such an alphanumeric identifier, `loadPage` returns the saved body. -/
theorem save_then_loadPage_of_lower (fs : FileSystem) (X : String) (B : List Byte)
    (halnum : ∀ c ∈ X.data, IsAlnum c) (hlower : strings.ToLower X = X)
    (hdirs : "./data" ∈ fs.dirs) :
    ∃ fs1, Page.save fs { Title := X, Body := B } = (fs1, none) ∧
      loadPage fs1 X = .ok { Title := X, Body := B } := by
  obtain ⟨htdir, _⟩ := save_target X halnum
  refine ⟨{ fs with files := upsert ("./data/" ++ strings.ToLower X ++ ".txt") B fs.files },
    ?_, ?_⟩
  · simp only [Page.save, os.WriteFile, htdir, if_pos hdirs]
  · apply loadPage_of_read
    rw [readFile_ok_iff]
    have := lookup_upsert_self ("./data/" ++ strings.ToLower X ++ ".txt") B fs.files
    rw [hlower] at this
    rw [hlower]
    exact this

/-- For an identifier that lower-casing changes, `Page.save` leaves the file that
`loadPage` reads as it was: a page that was absent before the save is still absent
after it. -/
theorem save_then_loadPage_of_upper (fs : FileSystem) (X : String) (B : List Byte)
    (hupper : strings.ToLower X ≠ X) (e : OSError) (habsent : loadPage fs X = .err e) :
    loadPage (Page.save fs { Title := X, Body := B }).1 X = .err e := by
  have hname : "./data/" ++ X ++ ".txt" ≠ "./data/" ++ strings.ToLower X ++ ".txt" := by
    intro h
    apply hupper
    have h1 := congrArg String.data h
    simp only [String.data_append] at h1
    exact String.ext (List.append_cancel_left (List.append_cancel_right h1)).symm
  unfold Page.save os.WriteFile
  dsimp only
  split_ifs
  · unfold loadPage at habsent ⊢
    dsimp only at habsent ⊢
    have hread : os.ReadFile
        { fs with files := upsert ("./data/" ++ strings.ToLower X ++ ".txt") B fs.files }
        ("./data/" ++ X ++ ".txt") = os.ReadFile fs ("./data/" ++ X ++ ".txt") := by
      simp only [os.ReadFile, lookup_upsert_other _ _ _ hname]
    rw [hread]
    exact habsent
  · exact habsent

/-! ## The multiplexer -/

theorem main_m (templates : Template) :
    (main templates).m =
      [("/", rootHandler), ("/sudoku/all", viewAllSudokuHandler templates),
       ("/sudoku/", makeHandler (viewSudokuHandler templates)),
       ("/all/", viewAllHandler templates),
       ("/view/", makeHandler (viewHandler templates)),
       ("/edit/", makeHandler (editHandler templates)),
       ("/save/", makeHandler saveHandler)] := rfl

theorem main_es (templates : Template) :
    (main templates).es =
      [("/sudoku/", makeHandler (viewSudokuHandler templates)),
       ("/view/", makeHandler (viewHandler templates)),
       ("/edit/", makeHandler (editHandler templates)),
       ("/save/", makeHandler saveHandler),
       ("/all/", viewAllHandler templates),
       ("/", rootHandler)] := rfl

theorem string_eq_iff (a b : String) : a = b ↔ a.data = b.data :=
  ⟨fun h => by rw [h], fun h => String.ext h⟩


/-- Paths under `/view/` go to the wrapped `viewHandler`. -/
theorem main_view (templates : Template) (path : String)
    (hpre : strings.HasPrefix path "/view/" = true) :
    (main templates).shouldRedirect path = false ∧
      (main templates).matchPath path = some (makeHandler (viewHandler templates)) := by
  unfold strings.HasPrefix at hpre
  rw [ List.isPrefixOf_iff_prefix] at hpre
  obtain ⟨rest, hrest⟩ := hpre
  have hd : path.data = '/' :: 'v' :: 'i' :: 'e' :: 'w' :: '/' :: rest := by
    rw [← hrest]; rfl
  have e1 : "/".data = ['/'] := rfl
  have e2 : "/sudoku/all".data = ['/', 's', 'u', 'd', 'o', 'k', 'u', '/', 'a', 'l', 'l'] := rfl
  have e3 : "/sudoku/".data = ['/', 's', 'u', 'd', 'o', 'k', 'u', '/'] := rfl
  have e4 : "/all/".data = ['/', 'a', 'l', 'l', '/'] := rfl
  have e5 : "/view/".data = ['/', 'v', 'i', 'e', 'w', '/'] := rfl
  have e6 : "/edit/".data = ['/', 'e', 'd', 'i', 't', '/'] := rfl
  have e7 : "/save/".data = ['/', 's', 'a', 'v', 'e', '/'] := rfl
  by_cases hnil : rest = []
  · constructor
    · simp [ServeMux.shouldRedirect, main_m, string_eq_iff, String.data_append, hd, e1, e2, e3,
        e4, e5, e6, e7, hnil]
    · simp [ServeMux.matchPath, main_m, main_es, string_eq_iff, hd, e1, e2, e3,
        e4, e5, e6, e7, hnil]
  · have hnil1 : ¬ [] = rest := fun h => hnil h.symm
    constructor
    · simp [ServeMux.shouldRedirect, main_m, string_eq_iff, String.data_append, hd, e1, e2, e3,
        e4, e5, e6, e7, hnil, hnil1]
    · simp [ServeMux.matchPath, main_m, main_es, string_eq_iff, hd, e1, e2, e3,
        e4, e5, e6, e7, hnil, hnil1, strings.HasPrefix]

/-- Paths under `/edit/` go to the wrapped `editHandler`. -/
theorem main_edit (templates : Template) (path : String)
    (hpre : strings.HasPrefix path "/edit/" = true) :
    (main templates).shouldRedirect path = false ∧
      (main templates).matchPath path = some (makeHandler (editHandler templates)) := by
  unfold strings.HasPrefix at hpre
  rw [ List.isPrefixOf_iff_prefix] at hpre
  obtain ⟨rest, hrest⟩ := hpre
  have hd : path.data = '/' :: 'e' :: 'd' :: 'i' :: 't' :: '/' :: rest := by
    rw [← hrest]; rfl
  have e1 : "/".data = ['/'] := rfl
  have e2 : "/sudoku/all".data = ['/', 's', 'u', 'd', 'o', 'k', 'u', '/', 'a', 'l', 'l'] := rfl
  have e3 : "/sudoku/".data = ['/', 's', 'u', 'd', 'o', 'k', 'u', '/'] := rfl
  have e4 : "/all/".data = ['/', 'a', 'l', 'l', '/'] := rfl
  have e5 : "/view/".data = ['/', 'v', 'i', 'e', 'w', '/'] := rfl
  have e6 : "/edit/".data = ['/', 'e', 'd', 'i', 't', '/'] := rfl
  have e7 : "/save/".data = ['/', 's', 'a', 'v', 'e', '/'] := rfl
  by_cases hnil : rest = []
  · constructor
    · simp [ServeMux.shouldRedirect, main_m, string_eq_iff, String.data_append, hd, e1, e2, e3,
        e4, e5, e6, e7, hnil]
    · simp [ServeMux.matchPath, main_m, main_es, string_eq_iff, hd, e1, e2, e3,
        e4, e5, e6, e7, hnil]
  · have hnil1 : ¬ [] = rest := fun h => hnil h.symm
    constructor
    · simp [ServeMux.shouldRedirect, main_m, string_eq_iff, String.data_append, hd, e1, e2, e3,
        e4, e5, e6, e7, hnil, hnil1]
    · simp [ServeMux.matchPath, main_m, main_es, string_eq_iff, hd, e1, e2, e3,
        e4, e5, e6, e7, hnil, hnil1, strings.HasPrefix]

/-- Paths under `/save/` go to the wrapped `saveHandler`. -/
theorem main_save (templates : Template) (path : String)
    (hpre : strings.HasPrefix path "/save/" = true) :
    (main templates).shouldRedirect path = false ∧
      (main templates).matchPath path = some (makeHandler saveHandler) := by
  unfold strings.HasPrefix at hpre
  rw [ List.isPrefixOf_iff_prefix] at hpre
  obtain ⟨rest, hrest⟩ := hpre
  have hd : path.data = '/' :: 's' :: 'a' :: 'v' :: 'e' :: '/' :: rest := by
    rw [← hrest]; rfl
  have e1 : "/".data = ['/'] := rfl
  have e2 : "/sudoku/all".data = ['/', 's', 'u', 'd', 'o', 'k', 'u', '/', 'a', 'l', 'l'] := rfl
  have e3 : "/sudoku/".data = ['/', 's', 'u', 'd', 'o', 'k', 'u', '/'] := rfl
  have e4 : "/all/".data = ['/', 'a', 'l', 'l', '/'] := rfl
  have e5 : "/view/".data = ['/', 'v', 'i', 'e', 'w', '/'] := rfl
  have e6 : "/edit/".data = ['/', 'e', 'd', 'i', 't', '/'] := rfl
  have e7 : "/save/".data = ['/', 's', 'a', 'v', 'e', '/'] := rfl
  by_cases hnil : rest = []
  · constructor
    · simp [ServeMux.shouldRedirect, main_m, string_eq_iff, String.data_append, hd, e1, e2, e3,
        e4, e5, e6, e7, hnil]
    · simp [ServeMux.matchPath, main_m, main_es, string_eq_iff, hd, e1, e2, e3,
        e4, e5, e6, e7, hnil]
  · have hnil1 : ¬ [] = rest := fun h => hnil h.symm
    constructor
    · simp [ServeMux.shouldRedirect, main_m, string_eq_iff, String.data_append, hd, e1, e2, e3,
        e4, e5, e6, e7, hnil, hnil1]
    · simp [ServeMux.matchPath, main_m, main_es, string_eq_iff, hd, e1, e2, e3,
        e4, e5, e6, e7, hnil, hnil1, strings.HasPrefix]

/-- Paths under `/all/` go to `viewAllHandler`. -/
theorem main_all (templates : Template) (path : String)
    (hpre : strings.HasPrefix path "/all/" = true) :
    (main templates).shouldRedirect path = false ∧
      (main templates).matchPath path = some (viewAllHandler templates) := by
  unfold strings.HasPrefix at hpre
  rw [ List.isPrefixOf_iff_prefix] at hpre
  obtain ⟨rest, hrest⟩ := hpre
  have hd : path.data = '/' :: 'a' :: 'l' :: 'l' :: '/' :: rest := by
    rw [← hrest]; rfl
  have e1 : "/".data = ['/'] := rfl
  have e2 : "/sudoku/all".data = ['/', 's', 'u', 'd', 'o', 'k', 'u', '/', 'a', 'l', 'l'] := rfl
  have e3 : "/sudoku/".data = ['/', 's', 'u', 'd', 'o', 'k', 'u', '/'] := rfl
  have e4 : "/all/".data = ['/', 'a', 'l', 'l', '/'] := rfl
  have e5 : "/view/".data = ['/', 'v', 'i', 'e', 'w', '/'] := rfl
  have e6 : "/edit/".data = ['/', 'e', 'd', 'i', 't', '/'] := rfl
  have e7 : "/save/".data = ['/', 's', 'a', 'v', 'e', '/'] := rfl
  by_cases hnil : rest = []
  · constructor
    · simp [ServeMux.shouldRedirect, main_m, string_eq_iff, String.data_append, hd, e1, e2, e3,
        e4, e5, e6, e7, hnil]
    · simp [ServeMux.matchPath, main_m, main_es, string_eq_iff, hd, e1, e2, e3,
        e4, e5, e6, e7, hnil]
  · have hnil1 : ¬ [] = rest := fun h => hnil h.symm
    constructor
    · simp [ServeMux.shouldRedirect, main_m, string_eq_iff, String.data_append, hd, e1, e2, e3,
        e4, e5, e6, e7, hnil, hnil1]
    · simp [ServeMux.matchPath, main_m, main_es, string_eq_iff, hd, e1, e2, e3,
        e4, e5, e6, e7, hnil, hnil1, strings.HasPrefix]


/-- Paths under `/sudoku/` other than `/sudoku/all` go to the wrapped
`viewSudokuHandler`. -/
theorem main_sudoku (templates : Template) (path : String)
    (hpre : strings.HasPrefix path "/sudoku/" = true) (hne : path ≠ "/sudoku/all") :
    (main templates).shouldRedirect path = false ∧
      (main templates).matchPath path = some (makeHandler (viewSudokuHandler templates)) := by
  unfold strings.HasPrefix at hpre
  rw [ List.isPrefixOf_iff_prefix] at hpre
  obtain ⟨rest, hrest⟩ := hpre
  have hd : path.data = '/' :: 's' :: 'u' :: 'd' :: 'o' :: 'k' :: 'u' :: '/' :: rest := by
    rw [← hrest]; rfl
  have e1 : "/".data = ['/'] := rfl
  have e2 : "/sudoku/all".data = ['/', 's', 'u', 'd', 'o', 'k', 'u', '/', 'a', 'l', 'l'] := rfl
  have e3 : "/sudoku/".data = ['/', 's', 'u', 'd', 'o', 'k', 'u', '/'] := rfl
  have e4 : "/all/".data = ['/', 'a', 'l', 'l', '/'] := rfl
  have e5 : "/view/".data = ['/', 'v', 'i', 'e', 'w', '/'] := rfl
  have e6 : "/edit/".data = ['/', 'e', 'd', 'i', 't', '/'] := rfl
  have e7 : "/save/".data = ['/', 's', 'a', 'v', 'e', '/'] := rfl
  have hall : ¬ ['a', 'l', 'l'] = rest := by
    intro h
    apply hne
    apply String.ext
    rw [hd, e2, ← h]
  have hall1 : ¬ rest = ['a', 'l', 'l'] := fun h => hall h.symm
  have hslash : ¬ ['a', 'l', 'l'] = rest ++ ['/'] := by
    intro h
    have := congrArg List.reverse h
    simp at this
  by_cases hnil : rest = []
  · constructor
    · simp [ServeMux.shouldRedirect, main_m, string_eq_iff, String.data_append, hd, e1, e2, e3,
        e4, e5, e6, e7, hnil]
    · simp [ServeMux.matchPath, main_m, main_es, string_eq_iff, hd, e1, e2, e3,
        e4, e5, e6, e7, hnil]
  · have hnil1 : ¬ [] = rest := fun h => hnil h.symm
    constructor
    · simp [ServeMux.shouldRedirect, main_m, string_eq_iff, String.data_append, hd, e1, e2, e3,
        e4, e5, e6, e7, hnil, hnil1, hall, hall1, hslash]
    · simp [ServeMux.matchPath, main_m, main_es, string_eq_iff, hd, e1, e2, e3,
        e4, e5, e6, e7, hnil, hnil1, hall, hall1, strings.HasPrefix]

/-- The canonical form of a path starts with a slash. -/
theorem cleanPath_head (p : String) : ∃ t, (cleanPath p).data = '/' :: t := by
  unfold cleanPath
  by_cases h : p = ""
  · rw [if_pos h]; exact ⟨[], rfl⟩
  · rw [if_neg h]
    dsimp only
    split_ifs <;> exact ⟨_, rfl⟩

/-- A path in canonical form that lies in none of the five registered subtrees, and
is none of their roots without the slash, goes to `rootHandler`. -/
theorem main_root (templates : Template) (path : String)
    (hclean : cleanPath path = path)
    (hout : ∀ v ∈ ["sudoku", "all", "view", "edit", "save"],
      strings.HasPrefix path ("/" ++ v ++ "/") = false ∧ path ≠ "/" ++ v) :
    (main templates).shouldRedirect path = false ∧
      (main templates).matchPath path = some rootHandler := by
  obtain ⟨t, ht⟩ := cleanPath_head path
  rw [hclean] at ht
  obtain ⟨p1, q1⟩ := hout "sudoku" (by simp)
  obtain ⟨p2, q2⟩ := hout "all" (by simp)
  obtain ⟨p3, q3⟩ := hout "view" (by simp)
  obtain ⟨p4, q4⟩ := hout "edit" (by simp)
  obtain ⟨p5, q5⟩ := hout "save" (by simp)
  have n1 : "/" ++ "sudoku" ++ "/" = "/sudoku/" := by decide
  have n2 : "/" ++ "all" ++ "/" = "/all/" := by decide
  have n3 : "/" ++ "view" ++ "/" = "/view/" := by decide
  have n4 : "/" ++ "edit" ++ "/" = "/edit/" := by decide
  have n5 : "/" ++ "save" ++ "/" = "/save/" := by decide
  rw [n1] at p1
  rw [n2] at p2
  rw [n3] at p3
  rw [n4] at p4
  rw [n5] at p5
  have x1 : ¬ "/sudoku/all" = path := by
    intro h; rw [← h] at p1; revert p1; decide
  have x2 : ¬ "/sudoku/" = path := by
    intro h; rw [← h] at p1; revert p1; decide
  have x3 : ¬ "/all/" = path := by
    intro h; rw [← h] at p2; revert p2; decide
  have x4 : ¬ "/view/" = path := by
    intro h; rw [← h] at p3; revert p3; decide
  have x5 : ¬ "/edit/" = path := by
    intro h; rw [← h] at p4; revert p4; decide
  have x6 : ¬ "/save/" = path := by
    intro h; rw [← h] at p5; revert p5; decide
  have cancel : ∀ q : String, q ++ "/" = path ++ "/" → path = q := by
    intro q h
    have h1 := congrArg String.data h
    rw [String.data_append, String.data_append] at h1
    exact String.ext (List.append_cancel_right h1).symm
  have y0 : ¬ "/" = path ++ "/" := by
    intro h
    have h1 := cancel "" h
    rw [h1] at ht
    cases ht
  have y1 : ¬ "/sudoku/all" = path ++ "/" := by
    intro h
    have h1 := congrArg (fun s => s.data.reverse) h
    simp [String.data_append] at h1
  have y2 : ¬ "/sudoku/" = path ++ "/" := fun h => q1 (cancel "/sudoku" h)
  have y3 : ¬ "/all/" = path ++ "/" := fun h => q2 (cancel "/all" h)
  have y4 : ¬ "/view/" = path ++ "/" := fun h => q3 (cancel "/view" h)
  have y5 : ¬ "/edit/" = path ++ "/" := fun h => q4 (cancel "/edit" h)
  have y6 : ¬ "/save/" = path ++ "/" := fun h => q5 (cancel "/save" h)
  have hroot : strings.HasPrefix path "/" = true := by
    simp [strings.HasPrefix, ht, List.isPrefixOf]
  have hdata : ¬ path.data = [] := by rw [ht]; simp
  constructor
  · simp [ServeMux.shouldRedirect, main_m, x1, x2, x3, x4, x5, x6, y0, y1, y2, y3, y4, y5, y6,
      hdata]
  · by_cases hs : "/" = path
    · simp [ServeMux.matchPath, main_m, hs]
    · simp [ServeMux.matchPath, main_m, main_es, hs, x1, x2, x3, x4, x5, x6, p1, p2, p3, p4, p5,
        hroot]


/-- A request whose path is in canonical form and is not redirected is answered by
the handler the multiplexer finds for it. -/
theorem serve_eq (templates : Template) (fs : FileSystem) (r : Request) (h : HandlerFunc)
    (hclean : cleanPath r.URL.Path = r.URL.Path)
    (hred : (main templates).shouldRedirect r.URL.Path = false)
    (hmatch : (main templates).matchPath r.URL.Path = some h) :
    serve templates fs r = h fs r := by
  simp [serve, ServeMux.ServeHTTP, hclean, hred, hmatch]

theorem not_grammar_of_find_none (path : String)
    (h : validPath.FindStringSubmatch path = none) :
    ¬ ∃ verb id, RouteGrammar path verb id := by
  rintro ⟨verb, id, hg⟩
  rw [findStringSubmatch_of_grammar path verb id hg] at h
  cases h

/-- C7 as stated fails: the path `/foo` is none of the fixed routes and does not match
the route grammar, and the server answers it with the redirect of `rootHandler`, not
with Not Found. -/
theorem serve_foo_not_404 :
    ¬ (∀ (templates : Template) (fs : FileSystem) (r : Request),
        r.URL.Path ∉ ["/", "/all/", "/sudoku/all"] →
        (¬ ∃ verb id, RouteGrammar r.URL.Path verb id) →
        serve templates fs r = (fs, http.NotFound)) := by
  intro h
  have h1 := h sampleTemplates emptyPagesFS (request "/foo" []) (by decide)
    (not_grammar_of_find_none _ (by decide))
  have h2 : serve sampleTemplates emptyPagesFS (request "/foo" [])
      = (emptyPagesFS, .redirect "/view/FrontPage" 302) := by decide
  rw [h2] at h1
  revert h1
  decide

/-- C7, amended: for a request path in canonical form that does not match the route
grammar, the server answers Not Found, with the file system untouched, when the path
lies under `/sudoku/`, `/view/`, `/edit/` or `/save/`; when the path lies in none of
the five registered subtrees and is none of their roots without the slash, the
catch-all route answers with the 302 redirect to `/view/FrontPage`. -/
theorem serve_outside_grammar (templates : Template) (fs : FileSystem) (r : Request)
    (hclean : cleanPath r.URL.Path = r.URL.Path)
    (hno : ¬ ∃ verb id, RouteGrammar r.URL.Path verb id) :
    ((∃ v ∈ ["sudoku", "view", "edit", "save"],
        strings.HasPrefix r.URL.Path ("/" ++ v ++ "/") = true) →
      serve templates fs r = (fs, http.NotFound)) ∧
    ((∀ v ∈ ["sudoku", "all", "view", "edit", "save"],
        strings.HasPrefix r.URL.Path ("/" ++ v ++ "/") = false ∧ r.URL.Path ≠ "/" ++ v) →
      serve templates fs r = (fs, .redirect "/view/FrontPage" 302)) := by
  constructor
  · rintro ⟨v, hv, hp⟩
    simp only [List.mem_cons, List.mem_singleton, List.not_mem_nil, or_false] at hv
    rcases hv with rfl | rfl | rfl | rfl
    · have hne : r.URL.Path ≠ "/sudoku/all" := by
        intro h
        apply hno
        rw [h]
        exact ⟨"sudoku", "all", by unfold RouteGrammar; decide⟩
      obtain ⟨h1, h2⟩ := main_sudoku templates r.URL.Path hp hne
      rw [serve_eq templates fs r _ hclean h1 h2]
      exact makeHandler_of_no_match _ fs r hno
    · obtain ⟨h1, h2⟩ := main_view templates r.URL.Path hp
      rw [serve_eq templates fs r _ hclean h1 h2]
      exact makeHandler_of_no_match _ fs r hno
    · obtain ⟨h1, h2⟩ := main_edit templates r.URL.Path hp
      rw [serve_eq templates fs r _ hclean h1 h2]
      exact makeHandler_of_no_match _ fs r hno
    · obtain ⟨h1, h2⟩ := main_save templates r.URL.Path hp
      rw [serve_eq templates fs r _ hclean h1 h2]
      exact makeHandler_of_no_match _ fs r hno
  · intro hout
    obtain ⟨h1, h2⟩ := main_root templates r.URL.Path hclean hout
    rw [serve_eq templates fs r _ hclean h1 h2]
    rfl

/-- C7, amended, on two paths: `/view/my-notes` is answered Not Found and `/foo` is
answered with the redirect to `/view/FrontPage`. -/
theorem serve_outside_grammar_samples :
    serve sampleTemplates pagesFS (request "/view/my-notes" []) = (pagesFS, http.NotFound) ∧
      serve sampleTemplates pagesFS (request "/foo" [])
        = (pagesFS, .redirect "/view/FrontPage" 302) := by
  constructor
  · exact (serve_outside_grammar sampleTemplates pagesFS (request "/view/my-notes" [])
      (by decide) (not_grammar_of_find_none _ (by decide))).1 ⟨"view", by decide, by decide⟩
  · exact (serve_outside_grammar sampleTemplates pagesFS (request "/foo" [])
      (by decide) (not_grammar_of_find_none _ (by decide))).2 (by decide)

end GoSudoku
